import Mathlib

/-!
Verification development for the descriptor-query core of rair-core
(`src/rio/src/descquery.rs`).

The Rust structure `RIODescQuery` owns a dense table of optional
descriptors indexed by handle, an interval index (`rtrees::ist::IST`)
from closed `u64` ranges to handles, a next-handle counter and a min-heap
of freed handles.  All `u64` arithmetic is embedded as `Nat` with an
explicit `% 2^64` where the source may wrap (the closed-bound computation
`base + size - 1`, the placement advance `paddr + size`, the cursor
advance `start + delta` and the chunk computation `size - (start - paddr)`).

The interval index itself lives in the repository's `rtrees` crate, which
is not part of the sources under study; it is modelled from the spec's
contract (section 4.2) as a list of `(lo, hi, handle)` triples kept sorted
by `lo`, exactly the observable behaviour the orchestrator relies on.
Likewise the backend open is modelled from the spec as producing a
descriptor with a backend-reported size and placeholder address.

Rust `unwrap` calls on states that violate the data-structure invariant,
and divergence of the unbounded first-fit placement loop, are modelled by
`Option.none` results (the loop gets fuel `size of the index + 1`, the
iteration bound asserted by the spec).
-/

/-- 2^64, the modulus of Rust `u64` arithmetic. -/
def U64MOD : Nat := 18446744073709551616

/-- Wrapping `u64` addition. -/
def wadd (a b : Nat) : Nat := (a + b) % U64MOD

/-- Wrapping `u64` subtraction (for values `< U64MOD`). -/
def wsub (a b : Nat) : Nat := (a + (U64MOD - b % U64MOD)) % U64MOD

/-- The closed upper bound `base + size - 1` as computed by the Rust code in
`u64` arithmetic (wrapping add of `base` and `size`, then wrapping
subtraction of 1).  This computation appears in `close`, `register_open`,
`register_open_at` and `paddr_range_to_hndl`. -/
def bound64 (base size : Nat) : Nat := (base + size + (U64MOD - 1)) % U64MOD

/-- Modelled from the spec: a Descriptor as produced by the backend open
and adopted by this core: a back-reference handle, the virtual address at
which it is mapped, and its byte size (the backend-specific I/O state is
opaque to the core and omitted).  The concrete `RIODesc` lives in the
repository's `desc.rs`, which is not among the sources under study. -/
structure RIODesc where
  hndl : Nat
  paddr : Nat
  size : Nat
deriving Repr, DecidableEq

/-- An entry of the interval index: `(lo, hi, handle)`. -/
abbrev ISTEntry := Nat × Nat × Nat

/-- Modelled from the spec: the Address Index (`rtrees::ist::IST`) as a
list of disjoint closed intervals kept sorted by interval start.  Only the
contract of section 4.2 is modelled: insert, exact-range delete, overlap
query ordered by interval start, point query, size. -/
abbrev IST := List ISTEntry

/-- Modelled from the spec: the entries whose interval intersects the
closed query range `[lo, hi]`, in interval-start order. -/
def IST.overlapEnts : IST → Nat → Nat → List ISTEntry
  | [], _, _ => []
  | e :: t, lo, hi =>
    if e.1 ≤ hi ∧ lo ≤ e.2.1 then e :: IST.overlapEnts t lo hi
    else IST.overlapEnts t lo hi

/-- Modelled from the spec: `IST::overlap` returns the handles of the
intervals intersecting `[lo, hi]`, ordered by interval start. -/
def IST.overlap (t : IST) (lo hi : Nat) : List Nat :=
  (IST.overlapEnts t lo hi).map (fun e => e.2.2)

/-- Modelled from the spec: `IST::at`, the handles whose interval contains
the point `addr`. -/
def IST.point : IST → Nat → List Nat
  | [], _ => []
  | e :: t, x =>
    if e.1 ≤ x ∧ x ≤ e.2.1 then e.2.2 :: IST.point t x
    else IST.point t x

/-- Modelled from the spec: `IST::insert`, inserting an interval keyed by
its start (the orchestrator has already checked for overlap). -/
def IST.insert : IST → Nat → Nat → Nat → IST
  | [], lo, hi, v => [(lo, hi, v)]
  | e :: t, lo, hi, v =>
    if lo ≤ e.1 then (lo, hi, v) :: e :: t
    else e :: IST.insert t lo hi v

/-- Modelled from the spec: `IST::delete_envelop` on the exact stored
bounds of a live interval removes the interval with exactly those
bounds. -/
def IST.delete_envelop : IST → Nat → Nat → IST
  | [], _, _ => []
  | e :: t, lo, hi =>
    if e.1 = lo ∧ e.2.1 = hi then IST.delete_envelop t lo hi
    else e :: IST.delete_envelop t lo hi

/-- Modelled from the spec: `IST::size`, the number of stored intervals. -/
def IST.size (t : IST) : Nat := t.length

/-- The error kinds owned by this core (`utils::IoError`; backend errors
are opaque pass-through and never produced by the modelled code). -/
inductive IoError where
  | HndlNotFoundError
  | AddressesOverlapError
deriving Repr, DecidableEq

/-- The state of `RIODescQuery`: the dense descriptor table, the address
index, the next-handle counter, and the free-handle min-heap (modelled as
a list kept sorted ascending, whose head is the minimum). -/
structure RIODescQuery where
  hndl_to_descs : List (Option RIODesc)
  paddr_to_hndls : IST
  next_hndl : Nat
  free_hndls : List Nat
deriving Repr, DecidableEq

/-- `RIODescQuery::new`. -/
def RIODescQuery.new : RIODescQuery :=
  { hndl_to_descs := [], paddr_to_hndls := [], next_hndl := 0, free_hndls := [] }

/-- Push onto the free-handle min-heap (`BinaryHeap<Reverse<u64>>`),
modelled as ordered insertion into the ascending list. -/
def heapPush : List Nat → Nat → List Nat
  | [], x => [x]
  | y :: t, x => if x ≤ y then x :: y :: t else y :: heapPush t x

/-- `RIODescQuery::get_new_hndl`: pop the minimum free handle if any,
otherwise take the next-counter value and advance the counter. -/
def get_new_hndl (s : RIODescQuery) : Nat × RIODescQuery :=
  match s.free_hndls with
  | h :: rest => (h, { s with free_hndls := rest })
  | [] => (s.next_hndl, { s with next_hndl := s.next_hndl + 1 })

/-- `RIODescQuery::hndl_to_desc`: `None` if the handle is out of range or
the slot is empty, otherwise the stored descriptor. -/
def hndl_to_desc (s : RIODescQuery) (hndl : Nat) : Option RIODesc :=
  s.hndl_to_descs.getD hndl none

/-- `RIODescQuery::register_handle`: obtain the descriptor from the
backend (modelled by its reported `size`), allocate a handle, write it
into the descriptor and store the descriptor at that slot (growing the
table when the handle is fresh). -/
def register_handle (s : RIODescQuery) (size : Nat) : Nat × RIODescQuery :=
  match get_new_hndl s with
  | (hndl, s1) =>
    let desc : RIODesc := { hndl := hndl, paddr := 0, size := size }
    if hndl < s1.hndl_to_descs.length then
      (hndl, { s1 with hndl_to_descs := s1.hndl_to_descs.set hndl (some desc) })
    else
      (hndl, { s1 with hndl_to_descs := s1.hndl_to_descs ++ [some desc] })

/-- `RIODescQuery::deregister_hndl`: fail with `HndlNotFoundError` when
the handle is out of range or the slot is empty; otherwise empty the slot,
push the handle onto the free heap and return the descriptor. -/
def deregister_hndl (s : RIODescQuery) (hndl : Nat) :
    Except IoError RIODesc × RIODescQuery :=
  match s.hndl_to_descs.getD hndl none with
  | none => (Except.error IoError.HndlNotFoundError, s)
  | some d =>
    (Except.ok d,
      { s with
        hndl_to_descs := s.hndl_to_descs.set hndl none,
        free_hndls := heapPush s.free_hndls hndl })

/-- `RIODescQuery::close`: deregister the handle, then delete its exact
interval `[paddr, paddr + size - 1]` from the address index. -/
def close (s : RIODescQuery) (hndl : Nat) :
    Except IoError RIODesc × RIODescQuery :=
  match deregister_hndl s hndl with
  | (Except.error e, s1) => (Except.error e, s1)
  | (Except.ok desc, s1) =>
    (Except.ok desc,
      { s1 with
        paddr_to_hndls :=
          IST.delete_envelop s1.paddr_to_hndls desc.paddr (bound64 desc.paddr desc.size) })

/-- One step of the first-fit placement loop of `register_open`: when
`overlap(lo, lo + size - 1)` is non-empty, the next candidate address is
one past the end of the highest-starting overlapping descriptor
(`last.paddr + last.size`).  `none` models the impossible `unwrap` on a
handle missing from the table. -/
def place_next (s : RIODescQuery) (size lo : Nat) : Option Nat :=
  match (IST.overlap s.paddr_to_hndls lo (bound64 lo size)).getLast? with
  | none => none
  | some last_hndl =>
    match s.hndl_to_descs.getD last_hndl none with
    | none => none
    | some last => some (wadd last.paddr last.size)

/-- The first-fit placement loop of `register_open`, with explicit fuel:
starting from candidate address `lo`, exit with `lo` as soon as
`overlap(lo, lo + size - 1)` is empty, otherwise advance past the
highest-starting overlapping descriptor and retry.  The Rust loop is
unbounded; exhausted fuel (`none`) models divergence. -/
def place_loop (s : RIODescQuery) (size : Nat) : Nat → Nat → Option Nat
  | _, 0 => none
  | lo, fuel + 1 =>
    if (IST.overlap s.paddr_to_hndls lo (bound64 lo size)).isEmpty then some lo
    else
      match place_next s size lo with
      | none => none
      | some lo2 => place_loop s size lo2 fuel

/-- `RIODescQuery::register_open`: register the descriptor, run the
first-fit placement loop from address 0, set the descriptor's address to
the found spot and insert its interval.  The fuel `IST.size + 1` is the
iteration bound asserted by the spec; `none` models divergence of the
unbounded Rust loop (or an impossible `unwrap` failure). -/
def register_open (s : RIODescQuery) (size : Nat) : Option (Nat × RIODescQuery) :=
  match register_handle s size with
  | (hndl, s1) =>
    match hndl_to_desc s1 hndl with
    | none => none
    | some d =>
      match place_loop s1 d.size 0 (IST.size s1.paddr_to_hndls + 1) with
      | none => none
      | some lo =>
        some (hndl,
          { s1 with
            hndl_to_descs := s1.hndl_to_descs.set hndl (some { d with paddr := lo }),
            paddr_to_hndls := IST.insert s1.paddr_to_hndls lo (bound64 lo d.size) hndl })

/-- `RIODescQuery::register_open_at`: register the descriptor, and when
`overlap(at, at + size - 1)` is non-empty roll the registration back
(deregister the handle) and fail with `AddressesOverlapError`; otherwise
place the descriptor at the requested address.  `none` models the
impossible `unwrap` failures. -/
def register_open_at (s : RIODescQuery) (size addr : Nat) :
    Option (Except IoError Nat × RIODescQuery) :=
  match register_handle s size with
  | (hndl, s1) =>
    match hndl_to_desc s1 hndl with
    | none => none
    | some d =>
      if (IST.overlap s1.paddr_to_hndls addr (bound64 addr d.size)).isEmpty then
        some (Except.ok hndl,
          { s1 with
            hndl_to_descs := s1.hndl_to_descs.set hndl (some { d with paddr := addr }),
            paddr_to_hndls := IST.insert s1.paddr_to_hndls addr (bound64 addr d.size) hndl })
      else
        match deregister_hndl s1 hndl with
        | (Except.ok _, s2) => some (Except.error IoError.AddressesOverlapError, s2)
        | (Except.error _, _) => none

/-- `RIODescQuery::paddr_to_hndl`: point query, returning the first (by
the invariant, only) handle whose interval contains `paddr`. -/
def paddr_to_hndl (s : RIODescQuery) (paddr : Nat) : Option Nat :=
  match IST.point s.paddr_to_hndls paddr with
  | [] => none
  | h :: _ => some h

/-- The chunk-emitting loop of `paddr_range_to_hndl`: for each candidate
handle in interval-start order, fail on a gap before its descriptor,
otherwise emit `(handle, start, delta)` with
`delta = min remaining (size - (start - paddr))` and advance.  `none` also
models the impossible `unwrap` on a missing descriptor. -/
def range_loop (s : RIODescQuery) : List Nat → Nat → Nat →
    Option (List (Nat × Nat × Nat))
  | [], _, remaining => if remaining = 0 then some [] else none
  | hndl :: rest, start, remaining =>
    match hndl_to_desc s hndl with
    | none => none
    | some desc =>
      if start < desc.paddr then none
      else
        let delta := min remaining (wsub desc.size (start - desc.paddr))
        match range_loop s rest (wadd start delta) (remaining - delta) with
        | none => none
        | some l => some ((hndl, start, delta) :: l)

/-- `RIODescQuery::paddr_range_to_hndl`: decompose `[paddr, paddr+size-1]`
into the ordered covering chunks, or `None` when the candidate list is
empty, a gap precedes a candidate, or the range extends past the last
candidate. -/
def paddr_range_to_hndl (s : RIODescQuery) (paddr size : Nat) :
    Option (List (Nat × Nat × Nat)) :=
  let hndls := IST.overlap s.paddr_to_hndls paddr (bound64 paddr size)
  if hndls.isEmpty then none
  else range_loop s hndls paddr size

/-- Modelled from the spec: the cursor algorithm of
`address_range_to_handles` (section 4.3), stated over the candidate
descriptors `(handle, address, size)` in interval-start order, with exact
arithmetic: on a gap before the candidate fail, otherwise emit
`(handle, cursor, chunk)` with
`chunk = min remaining (size - (cursor - address))` and advance; after the
candidates are exhausted fail unless `remaining = 0`. -/
def spec_chunks : List (Nat × Nat × Nat) → Nat → Nat →
    Option (List (Nat × Nat × Nat))
  | [], _, remaining => if remaining = 0 then some [] else none
  | (hndl, addr, sz) :: rest, cursor, remaining =>
    if cursor < addr then none
    else
      let chunk := min remaining (sz - (cursor - addr))
      match spec_chunks rest (cursor + chunk) (remaining - chunk) with
      | none => none
      | some l => some ((hndl, cursor, chunk) :: l)

/-- Modelled from the spec: the candidate descriptors of
`address_range_to_handles`, read off from the overlap query on the exact
closed range `[addr, addr + length - 1]`, each paired with its recorded
address and size. -/
def specCandidates (s : RIODescQuery) (addr length : Nat) :
    List (Nat × Nat × Nat) :=
  (IST.overlap s.paddr_to_hndls addr (addr + length - 1)).filterMap
    (fun h => (hndl_to_desc s h).map (fun d => (h, d.paddr, d.size)))

/-- Modelled from the spec: `address_range_to_handles` as described in
section 4.3, the cursor algorithm run on the candidate descriptors. -/
def address_range_to_handles_spec (s : RIODescQuery) (addr length : Nat) :
    Option (List (Nat × Nat × Nat)) :=
  spec_chunks (specCandidates s addr length) addr length

/-- An operation on the descriptor-query state, for stating properties of
operation sequences.  Backend opens are represented by the size the
backend reports. -/
inductive RIOOp where
  | op_open (size : Nat)
  | op_open_at (size addr : Nat)
  | op_close (hndl : Nat)
deriving Repr, DecidableEq

/-- Run one operation, keeping the resulting state only when the
operation succeeds (a failed or diverging operation yields `none`). -/
def runOp (s : RIODescQuery) : RIOOp → Option RIODescQuery
  | RIOOp.op_open size => (register_open s size).map (fun p => p.2)
  | RIOOp.op_open_at size addr =>
    match register_open_at s size addr with
    | some (Except.ok _, s1) => some s1
    | _ => none
  | RIOOp.op_close hndl =>
    match close s hndl with
    | (Except.ok _, s1) => some s1
    | (Except.error _, _) => none

/-- Run a sequence of operations, succeeding only when every operation
succeeds. -/
def runOps : RIODescQuery → List RIOOp → Option RIODescQuery
  | s, [] => some s
  | s, op :: rest =>
    match runOp s op with
    | none => none
    | some s1 => runOps s1 rest

/-- Run one operation and additionally check the wrap-freedom side
conditions: every opened descriptor has `size ≥ 1`, an exact placement
satisfies `addr + size ≤ 2^64`, and a first-fit placement ended up with an
in-range end address (`paddr + size ≤ 2^64`). -/
def runOpChecked (s : RIODescQuery) : RIOOp → Option RIODescQuery
  | RIOOp.op_open size =>
    if 1 ≤ size ∧ size < U64MOD then
      match register_open s size with
      | some (h, s1) =>
        if ∀ d ∈ hndl_to_desc s1 h, d.paddr + d.size ≤ U64MOD then some s1
        else none
      | none => none
    else none
  | RIOOp.op_open_at size addr =>
    if (1 ≤ size ∧ size < U64MOD) ∧ addr + size ≤ U64MOD then
      match register_open_at s size addr with
      | some (Except.ok _, s1) => some s1
      | _ => none
    else none
  | RIOOp.op_close hndl =>
    match close s hndl with
    | (Except.ok _, s1) => some s1
    | (Except.error _, _) => none

/-- Run a sequence of operations with the wrap-freedom side conditions. -/
def runOpsChecked : RIODescQuery → List RIOOp → Option RIODescQuery
  | s, [] => some s
  | s, op :: rest =>
    match runOpChecked s op with
    | none => none
    | some s1 => runOpsChecked s1 rest

/-- Disjointness order of two index entries: the first ends strictly
before the second starts. -/
def entDisj (a b : ISTEntry) : Prop := a.2.1 < b.1

/-- Number of live descriptors (non-empty table slots). -/
def liveCount (s : RIODescQuery) : Nat :=
  (s.hndl_to_descs.filter (fun o => o.isSome)).length

/-- Address `x` is covered by some live interval of the index. -/
def Covers (s : RIODescQuery) (x : Nat) : Prop :=
  ∃ e ∈ s.paddr_to_hndls, e.1 ≤ x ∧ x ≤ e.2.1

/-- Table slot `i`, when live, holds a descriptor that points back to its
own handle, has a positive in-range size, and whose exact interval is
stored in the address index. -/
def slotOK (s : RIODescQuery) (i : Nat) : Prop :=
  ∀ d : RIODesc, hndl_to_desc s i = some d →
    d.hndl = i ∧ 1 ≤ d.size ∧ d.size < U64MOD ∧ d.paddr + d.size ≤ U64MOD ∧
    (d.paddr, d.paddr + d.size - 1, i) ∈ s.paddr_to_hndls

/-- The data-structure invariant of `RIODescQuery`: the index entries are
sorted and pairwise disjoint, every entry is a valid `u64` interval whose
handle leads back to a matching live descriptor, every live descriptor's
exact interval is indexed, the next-handle counter equals the table
length, the free heap is strictly sorted and holds only dead in-range
handles, and the index holds exactly one interval per live descriptor. -/
def StateOK (s : RIODescQuery) : Prop :=
  List.Pairwise entDisj s.paddr_to_hndls ∧
  (∀ e ∈ s.paddr_to_hndls, e.1 ≤ e.2.1 ∧ e.2.1 < U64MOD) ∧
  (∀ e ∈ s.paddr_to_hndls,
    hndl_to_desc s e.2.2 = some { hndl := e.2.2, paddr := e.1, size := e.2.1 + 1 - e.1 }) ∧
  (∀ i < s.hndl_to_descs.length, slotOK s i) ∧
  s.next_hndl = s.hndl_to_descs.length ∧
  List.Pairwise (fun a b => a < b) s.free_hndls ∧
  (∀ h ∈ s.free_hndls, h < s.next_hndl ∧ hndl_to_desc s h = none) ∧
  IST.size s.paddr_to_hndls = liveCount s

instance (a b : ISTEntry) : Decidable (entDisj a b) := by
  unfold entDisj; infer_instance

instance (s : RIODescQuery) (x : Nat) : Decidable (Covers s x) := by
  unfold Covers; infer_instance

instance (s : RIODescQuery) (i : Nat) : Decidable (slotOK s i) :=
  decidable_of_iff
    (∀ d ∈ hndl_to_desc s i,
      d.hndl = i ∧ 1 ≤ d.size ∧ d.size < U64MOD ∧ d.paddr + d.size ≤ U64MOD ∧
      (d.paddr, d.paddr + d.size - 1, i) ∈ s.paddr_to_hndls)
    (by unfold slotOK; simp [Option.mem_def])

instance (s : RIODescQuery) : Decidable (StateOK s) := by
  unfold StateOK; infer_instance

/-! Arithmetic facts about the wrapped `u64` operations. -/

theorem U64MOD_pos : 0 < U64MOD := by decide

theorem bound64_eq {base size : Nat} (h1 : 1 ≤ size) (h2 : base + size ≤ U64MOD) :
    bound64 base size = base + size - 1 := by
  simp only [bound64, U64MOD] at *
  omega

theorem bound64_lt (base size : Nat) : bound64 base size < U64MOD := by
  simp only [bound64, U64MOD]
  omega

theorem wadd_eq {a b : Nat} (h : a + b < U64MOD) : wadd a b = a + b := by
  simp only [wadd, U64MOD] at *
  omega

theorem wadd_lt (a b : Nat) : wadd a b < U64MOD := by
  simp only [wadd, U64MOD]
  omega

theorem wadd_wrap {a b : Nat} (h : a + b = U64MOD) : wadd a b = 0 := by
  simp only [wadd, U64MOD] at *
  omega

theorem wsub_eq {a b : Nat} (hb : b ≤ a) (ha : a < U64MOD) : wsub a b = a - b := by
  simp only [wsub, U64MOD] at *
  omega

/-! Access to the descriptor table, `List.getD _ none`. -/

theorem tget_ge {α : Type} {l : List (Option α)} {i : Nat} (h : l.length ≤ i) :
    l.getD i none = none := by
  simp [List.getD_eq_getElem?_getD, List.getElem?_eq_none h]

theorem tget_lt_of_some {α : Type} {l : List (Option α)} {i : Nat} {d : α}
    (h : l.getD i none = some d) : i < l.length := by
  by_contra hc
  rw [tget_ge (Nat.le_of_not_lt hc)] at h
  cases h

theorem tget_set_self {α : Type} {l : List (Option α)} {i : Nat} {x : Option α}
    (h : i < l.length) : (l.set i x).getD i none = x := by
  simp [List.getD_eq_getElem?_getD, List.getElem?_set_self h]

theorem tget_set_ne {α : Type} {l : List (Option α)} {i j : Nat} {x : Option α}
    (h : i ≠ j) : (l.set i x).getD j none = l.getD j none := by
  simp [List.getD_eq_getElem?_getD, List.getElem?_set_ne h]

theorem tget_append_self {α : Type} {l : List (Option α)} {x : Option α} :
    (l ++ [x]).getD l.length none = x := by
  simp [List.getD_eq_getElem?_getD, List.getElem?_concat_length]

theorem tget_append_lt {α : Type} {l : List (Option α)} {x : Option α} {j : Nat}
    (h : j < l.length) : (l ++ [x]).getD j none = l.getD j none := by
  simp [List.getD_eq_getElem?_getD, List.getElem?_append, h]

theorem tget_append_gt {α : Type} {l : List (Option α)} {x : Option α} {j : Nat}
    (h : l.length < j) : (l ++ [x]).getD j none = none := by
  apply tget_ge
  simp
  omega

/-! Counting live slots. -/

theorem filter_isSome_set_some {α : Type} {l : List (Option α)} {i : Nat} {d : α}
    (h : l.getD i none = none) (hi : i < l.length) :
    ((l.set i (some d)).filter (fun o => o.isSome)).length =
      (l.filter (fun o => o.isSome)).length + 1 := by
  induction l generalizing i with
  | nil => simp at hi
  | cons a t ih =>
    cases i with
    | zero =>
      simp only [List.getD_eq_getElem?_getD] at h
      simp at h
      subst h
      simp [List.filter]
    | succ j =>
      have h' : t.getD j none = none := by
        simpa [List.getD_eq_getElem?_getD] using h
      have hj : j < t.length := by simpa using hi
      simp only [List.set]
      cases a with
      | none => simp [List.filter, ih h' hj]
      | some b => simp [List.filter, ih h' hj]

theorem filter_isSome_set_none {α : Type} {l : List (Option α)} {i : Nat} {d : α}
    (h : l.getD i none = some d) :
    ((l.set i none).filter (fun o => o.isSome)).length + 1 =
      (l.filter (fun o => o.isSome)).length := by
  induction l generalizing i with
  | nil => simp [List.getD_eq_getElem?_getD] at h
  | cons a t ih =>
    cases i with
    | zero =>
      simp only [List.getD_eq_getElem?_getD] at h
      simp at h
      subst h
      simp [List.filter]
    | succ j =>
      have h' : t.getD j none = some d := by
        simpa [List.getD_eq_getElem?_getD] using h
      simp only [List.set]
      cases a with
      | none => simp [List.filter, ih h']
      | some b => simp [List.filter, ih h']

theorem filter_isSome_append {α : Type} {l : List (Option α)} {d : α} :
    ((l ++ [some d]).filter (fun o => o.isSome)).length =
      (l.filter (fun o => o.isSome)).length + 1 := by
  simp [List.filter_append]

/-! Facts about the modelled interval index. -/

theorem mem_overlapEnts {t : IST} {lo hi : Nat} {e : ISTEntry} :
    e ∈ IST.overlapEnts t lo hi ↔ e ∈ t ∧ e.1 ≤ hi ∧ lo ≤ e.2.1 := by
  induction t with
  | nil => simp [IST.overlapEnts]
  | cons a t ih =>
    simp only [IST.overlapEnts]
    split
    · simp only [List.mem_cons, ih]
      constructor
      · rintro (rfl | ⟨hm, hc⟩)
        · exact ⟨Or.inl rfl, by assumption⟩
        · exact ⟨Or.inr hm, hc⟩
      · rintro ⟨(rfl | hm), hc⟩
        · exact Or.inl rfl
        · exact Or.inr ⟨hm, hc⟩
    · simp only [List.mem_cons, ih]
      constructor
      · rintro ⟨hm, hc⟩
        exact ⟨Or.inr hm, hc⟩
      · rintro ⟨(rfl | hm), hc⟩
        · exact absurd hc (by assumption)
        · exact ⟨hm, hc⟩

theorem overlapEnts_sublist (t : IST) (lo hi : Nat) :
    (IST.overlapEnts t lo hi).Sublist t := by
  induction t with
  | nil => simp [IST.overlapEnts]
  | cons a t ih =>
    simp only [IST.overlapEnts]
    split
    · exact ih.cons₂ a
    · exact ih.cons a

theorem overlap_empty_iff {t : IST} {lo hi : Nat} :
    (IST.overlap t lo hi).isEmpty = true ↔ ∀ e ∈ t, ¬(e.1 ≤ hi ∧ lo ≤ e.2.1) := by
  rw [IST.overlap, List.isEmpty_iff, List.map_eq_nil_iff, List.eq_nil_iff_forall_not_mem]
  constructor
  · intro h e hm hc
    exact h e (mem_overlapEnts.2 ⟨hm, hc⟩)
  · intro h e hm
    have := mem_overlapEnts.1 hm
    exact h e this.1 this.2

theorem mem_ist_insert {t : IST} {lo hi v : Nat} {a : ISTEntry} :
    a ∈ IST.insert t lo hi v ↔ a = (lo, hi, v) ∨ a ∈ t := by
  induction t with
  | nil => simp [IST.insert]
  | cons e t ih =>
    simp only [IST.insert]
    split
    · simp
    · simp only [List.mem_cons, ih]
      tauto

theorem length_ist_insert (t : IST) (lo hi v : Nat) :
    (IST.insert t lo hi v).length = t.length + 1 := by
  induction t with
  | nil => simp [IST.insert]
  | cons e t ih =>
    simp only [IST.insert]
    split
    · simp
    · simp [ih]

theorem ist_insert_pairwise {t : IST} {lo hi v : Nat}
    (hpw : List.Pairwise entDisj t)
    (hval : ∀ e ∈ t, e.1 ≤ e.2.1)
    (hdisj : ∀ e ∈ t, e.2.1 < lo ∨ hi < e.1)
    (hnew : lo ≤ hi) :
    List.Pairwise entDisj (IST.insert t lo hi v) := by
  induction t with
  | nil => simp [IST.insert, List.pairwise_singleton]
  | cons e t ih =>
    rcases List.pairwise_cons.1 hpw with ⟨he, hpt⟩
    simp only [IST.insert]
    split
    · rename_i hle
      refine List.pairwise_cons.2 ⟨?_, hpw⟩
      intro b hb
      rcases List.mem_cons.1 hb with heq | hbt
      · have h2 := hval e (List.mem_cons_self e t)
        unfold entDisj
        rw [heq]
        show hi < e.1
        rcases hdisj e (List.mem_cons_self e t) with h1 | h1
        · omega
        · omega
      · rcases hdisj b (List.mem_cons.2 (Or.inr hbt)) with h1 | h1
        · have h2 := he b hbt
          have h3 := hval e (List.mem_cons_self e t)
          have h4 := hval b (List.mem_cons.2 (Or.inr hbt))
          unfold entDisj at h2 ⊢
          omega
        · exact h1
    · rename_i hgt
      refine List.pairwise_cons.2 ⟨?_, ?_⟩
      · intro b hb
        rcases mem_ist_insert.1 hb with rfl | hbt
        · rcases hdisj e (List.mem_cons_self e t) with h1 | h1
          · exact h1
          · unfold entDisj
            omega
        · exact he b hbt
      · exact ih hpt (fun a ha => hval a (List.mem_cons.2 (Or.inr ha)))
          (fun a ha => hdisj a (List.mem_cons.2 (Or.inr ha)))

theorem mem_ist_delete {t : IST} {lo hi : Nat} {e : ISTEntry} :
    e ∈ IST.delete_envelop t lo hi ↔ e ∈ t ∧ ¬(e.1 = lo ∧ e.2.1 = hi) := by
  induction t with
  | nil => simp [IST.delete_envelop]
  | cons a t ih =>
    simp only [IST.delete_envelop]
    split
    · rename_i hc
      simp only [ih, List.mem_cons]
      constructor
      · rintro ⟨hm, hn⟩
        exact ⟨Or.inr hm, hn⟩
      · rintro ⟨(rfl | hm), hn⟩
        · exact absurd hc hn
        · exact ⟨hm, hn⟩
    · rename_i hc
      simp only [List.mem_cons, ih]
      constructor
      · rintro (rfl | ⟨hm, hn⟩)
        · exact ⟨Or.inl rfl, hc⟩
        · exact ⟨Or.inr hm, hn⟩
      · rintro ⟨(rfl | hm), hn⟩
        · exact Or.inl rfl
        · exact Or.inr ⟨hm, hn⟩

theorem ist_delete_sublist (t : IST) (lo hi : Nat) :
    (IST.delete_envelop t lo hi).Sublist t := by
  induction t with
  | nil => simp [IST.delete_envelop]
  | cons a t ih =>
    simp only [IST.delete_envelop]
    split
    · exact ih.cons a
    · exact ih.cons₂ a

theorem ist_delete_id {t : IST} {lo hi : Nat}
    (h : ∀ e ∈ t, ¬(e.1 = lo ∧ e.2.1 = hi)) :
    IST.delete_envelop t lo hi = t := by
  induction t with
  | nil => rfl
  | cons a t ih =>
    simp only [IST.delete_envelop]
    split
    · exact absurd (by assumption) (h a (List.mem_cons_self a t))
    · rw [ih (fun e he => h e (List.mem_cons.2 (Or.inr he)))]

theorem length_ist_delete {t : IST} {lo hi v : Nat}
    (hpw : List.Pairwise entDisj t)
    (hval : ∀ e ∈ t, e.1 ≤ e.2.1)
    (hmem : (lo, hi, v) ∈ t) :
    (IST.delete_envelop t lo hi).length + 1 = t.length := by
  induction t with
  | nil => cases hmem
  | cons a t ih =>
    rcases List.pairwise_cons.1 hpw with ⟨ha, hpt⟩
    simp only [IST.delete_envelop]
    split
    · rename_i hc
      have hid : IST.delete_envelop t lo hi = t := by
        apply ist_delete_id
        intro e he hce
        have h1 := ha e he
        unfold entDisj at h1
        have h2 := hval e (List.mem_cons.2 (Or.inr he))
        omega
      simp [hid]
    · rename_i hc
      rcases List.mem_cons.1 hmem with heq | hmt
      · subst heq
        exact absurd ⟨rfl, rfl⟩ hc
      · simp only [List.length_cons]
        rw [← ih hpt (fun e he => hval e (List.mem_cons.2 (Or.inr he))) hmt]

theorem ist_point_nil_iff {t : IST} {x : Nat} :
    IST.point t x = [] ↔ ∀ e ∈ t, ¬(e.1 ≤ x ∧ x ≤ e.2.1) := by
  induction t with
  | nil => simp [IST.point]
  | cons a t ih =>
    simp only [IST.point]
    split
    · rename_i hc
      simp only [List.mem_cons]
      constructor
      · intro h
        cases h
      · intro h
        exact absurd hc (h a (Or.inl rfl))
    · rename_i hc
      rw [ih]
      constructor
      · intro h e he
        rcases List.mem_cons.1 he with rfl | het
        · exact hc
        · exact h e het
      · intro h e he
        exact h e (List.mem_cons.2 (Or.inr he))

/-! Facts about the free-handle heap. -/

theorem mem_heapPush {l : List Nat} {x y : Nat} :
    y ∈ heapPush l x ↔ y = x ∨ y ∈ l := by
  induction l with
  | nil => simp [heapPush]
  | cons a t ih =>
    simp only [heapPush]
    split
    · simp
    · simp only [List.mem_cons, ih]
      tauto

theorem heapPush_pairwise {l : List Nat} {x : Nat}
    (h : List.Pairwise (fun a b => a < b) l) (hx : x ∉ l) :
    List.Pairwise (fun a b => a < b) (heapPush l x) := by
  induction l with
  | nil => simp [heapPush, List.pairwise_singleton]
  | cons a t ih =>
    rcases List.pairwise_cons.1 h with ⟨ha, hpt⟩
    simp only [heapPush]
    split
    · rename_i hle
      have hxa : x < a := by
        rcases Nat.lt_or_ge x a with h1 | h1
        · exact h1
        · have : x = a := Nat.le_antisymm hle h1
          subst this
          exact absurd (List.mem_cons_self x t) hx
      refine List.pairwise_cons.2 ⟨?_, h⟩
      intro b hb
      rcases List.mem_cons.1 hb with rfl | hbt
      · exact hxa
      · exact Nat.lt_trans hxa (ha b hbt)
    · rename_i hgt
      refine List.pairwise_cons.2 ⟨?_, ?_⟩
      · intro b hb
        rcases mem_heapPush.1 hb with rfl | hbt
        · omega
        · exact ha b hbt
      · exact ih hpt (fun hc => hx (List.mem_cons.2 (Or.inr hc)))

/-- Any two distinct entries of a sorted disjoint valid index are
disjoint, one entirely below the other. -/
theorem pairwise_mem_disj {t : IST}
    (hpw : List.Pairwise entDisj t)
    {e1 e2 : ISTEntry} (h1 : e1 ∈ t) (h2 : e2 ∈ t) (hne : e1 ≠ e2) :
    e1.2.1 < e2.1 ∨ e2.2.1 < e1.1 := by
  have hsym : Symmetric (fun a b : ISTEntry => entDisj a b ∨ entDisj b a) := by
    intro a b hab
    exact hab.symm
  have hpw2 : List.Pairwise (fun a b : ISTEntry => entDisj a b ∨ entDisj b a) t :=
    hpw.imp (fun h => Or.inl h)
  exact (List.Pairwise.forall hsym hpw2) h1 h2 hne

/-! Step lemmas describing the operations. -/

theorem register_handle_fresh {s : RIODescQuery} {size : Nat}
    (hfree : s.free_hndls = []) (hnext : s.next_hndl = s.hndl_to_descs.length) :
    register_handle s size =
      (s.next_hndl,
        { s with
          next_hndl := s.next_hndl + 1,
          hndl_to_descs :=
            s.hndl_to_descs ++ [some { hndl := s.next_hndl, paddr := 0, size := size }] }) := by
  have hnlt : ¬ s.next_hndl < s.hndl_to_descs.length := by omega
  simp only [register_handle, get_new_hndl, hfree]
  rw [if_neg hnlt]

theorem register_handle_pop {s : RIODescQuery} {size hndl : Nat} {t : List Nat}
    (hfree : s.free_hndls = hndl :: t) (hlt : hndl < s.hndl_to_descs.length) :
    register_handle s size =
      (hndl,
        { s with
          free_hndls := t,
          hndl_to_descs :=
            s.hndl_to_descs.set hndl (some { hndl := hndl, paddr := 0, size := size }) }) := by
  simp only [register_handle, get_new_hndl, hfree]
  rw [if_pos hlt]

theorem close_ok {s : RIODescQuery} {hndl : Nat} {d : RIODesc}
    (h : hndl_to_desc s hndl = some d) :
    close s hndl =
      (Except.ok d,
        { s with
          hndl_to_descs := s.hndl_to_descs.set hndl none,
          free_hndls := heapPush s.free_hndls hndl,
          paddr_to_hndls :=
            IST.delete_envelop s.paddr_to_hndls d.paddr (bound64 d.paddr d.size) }) := by
  unfold hndl_to_desc at h
  simp only [close, deregister_hndl, h]

theorem close_err {s : RIODescQuery} {hndl : Nat}
    (h : hndl_to_desc s hndl = none) :
    close s hndl = (Except.error IoError.HndlNotFoundError, s) := by
  unfold hndl_to_desc at h
  simp only [close, deregister_hndl, h]

theorem register_open_eq {s : RIODescQuery} {size hndl : Nat} {s1 : RIODescQuery}
    {d : RIODesc} {lo : Nat}
    (hrh : register_handle s size = (hndl, s1))
    (hd : hndl_to_desc s1 hndl = some d)
    (hpl : place_loop s1 d.size 0 (IST.size s1.paddr_to_hndls + 1) = some lo) :
    register_open s size =
      some (hndl,
        { s1 with
          hndl_to_descs := s1.hndl_to_descs.set hndl (some { d with paddr := lo }),
          paddr_to_hndls := IST.insert s1.paddr_to_hndls lo (bound64 lo d.size) hndl }) := by
  simp only [register_open, hrh, hd, hpl]

theorem register_open_at_ok {s : RIODescQuery} {size addr hndl : Nat}
    {s1 : RIODescQuery} {d : RIODesc}
    (hrh : register_handle s size = (hndl, s1))
    (hd : hndl_to_desc s1 hndl = some d)
    (hov : (IST.overlap s1.paddr_to_hndls addr (bound64 addr d.size)).isEmpty = true) :
    register_open_at s size addr =
      some (Except.ok hndl,
        { s1 with
          hndl_to_descs := s1.hndl_to_descs.set hndl (some { d with paddr := addr }),
          paddr_to_hndls := IST.insert s1.paddr_to_hndls addr (bound64 addr d.size) hndl }) := by
  simp only [register_open_at, hrh, hd, hov, if_true]

theorem register_open_at_err {s : RIODescQuery} {size addr hndl : Nat}
    {s1 : RIODescQuery} {d : RIODesc}
    (hrh : register_handle s size = (hndl, s1))
    (hd : hndl_to_desc s1 hndl = some d)
    (hov : (IST.overlap s1.paddr_to_hndls addr (bound64 addr d.size)).isEmpty = false) :
    register_open_at s size addr =
      some (Except.error IoError.AddressesOverlapError,
        { s1 with
          hndl_to_descs := s1.hndl_to_descs.set hndl none,
          free_hndls := heapPush s1.free_hndls hndl }) := by
  have hd' : s1.hndl_to_descs.getD hndl none = some d := hd
  simp only [register_open_at, hrh, hd, hov, deregister_hndl, hd', Bool.false_eq_true,
    if_false]

/-- `register_handle` under the invariant: the allocated handle was dead,
its slot now holds the fresh descriptor, every other slot is untouched,
the index is untouched, and the handle-allocation bookkeeping stays
coherent. -/
theorem register_handle_spec {s : RIODescQuery} (hok : StateOK s) (size : Nat) :
    ∃ hndl s1, register_handle s size = (hndl, s1) ∧
      s1.paddr_to_hndls = s.paddr_to_hndls ∧
      hndl_to_desc s hndl = none ∧
      hndl_to_desc s1 hndl = some { hndl := hndl, paddr := 0, size := size } ∧
      (∀ g, g ≠ hndl → hndl_to_desc s1 g = hndl_to_desc s g) ∧
      hndl < s1.hndl_to_descs.length ∧
      s1.next_hndl = s1.hndl_to_descs.length ∧
      List.Pairwise (fun a b => a < b) s1.free_hndls ∧
      (∀ g ∈ s1.free_hndls, g < s1.next_hndl ∧ hndl_to_desc s1 g = none) ∧
      liveCount s1 = liveCount s + 1 ∧
      (s.free_hndls = hndl :: s1.free_hndls ∨
        (s.free_hndls = [] ∧ hndl = s.next_hndl ∧ s1.free_hndls = [])) := by
  obtain ⟨hpw, hval, hcoh, hslots, hnext, hfpw, hfcoh, hsize⟩ := hok
  cases hf : s.free_hndls with
  | nil =>
    refine ⟨s.next_hndl, _, register_handle_fresh hf hnext, rfl, ?_, ?_, ?_, ?_, ?_, ?_, ?_, ?_,
      Or.inr ⟨rfl, rfl, hf⟩⟩
    · exact tget_ge (by omega)
    · show (s.hndl_to_descs ++ [_]).getD s.next_hndl none = _
      rw [hnext]
      exact tget_append_self
    · intro g hg
      show (s.hndl_to_descs ++ [_]).getD g none = s.hndl_to_descs.getD g none
      rw [hnext] at hg
      rcases Nat.lt_trichotomy g s.hndl_to_descs.length with h1 | h1 | h1
      · exact tget_append_lt h1
      · exact absurd h1 hg
      · rw [tget_append_gt h1, tget_ge (by omega)]
    · simp
      omega
    · simp [hnext]
    · simp [hf]
    · simp [hf]
    · show liveCount _ = _
      unfold liveCount
      simp only
      exact filter_isSome_append
  | cons h t =>
    have hh := hfcoh h (by rw [hf]; exact List.mem_cons_self h t)
    have hlt : h < s.hndl_to_descs.length := by omega
    have hfpw' : List.Pairwise (fun a b => a < b) (h :: t) := by rw [← hf]; exact hfpw
    rcases List.pairwise_cons.1 hfpw' with ⟨hhd, hpt⟩
    refine ⟨h, _, register_handle_pop hf hlt, rfl, hh.2, ?_, ?_, ?_, ?_, ?_, ?_, ?_, Or.inl rfl⟩
    · exact tget_set_self hlt
    · intro g hg
      exact tget_set_ne (fun hc => hg hc.symm)
    · simp [List.length_set]
      omega
    · simp [List.length_set]
      omega
    · exact hpt
    · intro g hgt
      have hg := hfcoh g (by rw [hf]; exact List.mem_cons.2 (Or.inr hgt))
      refine ⟨by simpa using hg.1, ?_⟩
      show (s.hndl_to_descs.set h _).getD g none = none
      rw [tget_set_ne (by have := hhd g hgt; omega)]
      exact hg.2
    · show liveCount _ = _
      unfold liveCount
      simp only
      exact filter_isSome_set_some hh.2 hlt

theorem filter_isSome_set_over_some {α : Type} {l : List (Option α)} {i : Nat}
    {d0 d : α} (h : l.getD i none = some d0) :
    ((l.set i (some d)).filter (fun o => o.isSome)).length =
      (l.filter (fun o => o.isSome)).length := by
  induction l generalizing i with
  | nil => simp [List.getD_eq_getElem?_getD] at h
  | cons a t ih =>
    cases i with
    | zero =>
      simp only [List.getD_eq_getElem?_getD] at h
      simp at h
      subst h
      simp [List.filter]
    | succ j =>
      have h' : t.getD j none = some d0 := by
        simpa [List.getD_eq_getElem?_getD] using h
      simp only [List.set]
      cases a with
      | none => simp [List.filter, ih h']
      | some b => simp [List.filter, ih h']

/-- If the placement loop exits with address `lo2`, then the overlap query
at `lo2` is empty. -/
theorem place_loop_spec {s : RIODescQuery} {size lo fuel lo2 : Nat}
    (h : place_loop s size lo fuel = some lo2) :
    (IST.overlap s.paddr_to_hndls lo2 (bound64 lo2 size)).isEmpty = true := by
  induction fuel generalizing lo with
  | zero => cases h
  | succ n ih =>
    rw [place_loop] at h
    split at h
    · cases h
      assumption
    · cases hpn : place_next s size lo with
      | none => rw [hpn] at h; cases h
      | some lo3 => rw [hpn] at h; exact ih h

/-- Closing a live handle preserves the data-structure invariant. -/
theorem stateOK_close {s : RIODescQuery} (hok : StateOK s) {hndl : Nat}
    {d : RIODesc} {s2 : RIODescQuery}
    (h : close s hndl = (Except.ok d, s2)) : StateOK s2 := by
  obtain ⟨hpw, hval, hcoh, hslots, hnext, hfpw, hfcoh, hsize⟩ := hok
  cases hd : hndl_to_desc s hndl with
  | none =>
    rw [close_err hd] at h
    cases h
  | some d0 =>
    rw [close_ok hd] at h
    have hs2 : s2 =
        { s with
          hndl_to_descs := s.hndl_to_descs.set hndl none,
          free_hndls := heapPush s.free_hndls hndl,
          paddr_to_hndls :=
            IST.delete_envelop s.paddr_to_hndls d0.paddr (bound64 d0.paddr d0.size) } := by
      have h2 := congrArg Prod.snd h
      exact h2.symm
    subst hs2
    have hlt : hndl < s.hndl_to_descs.length := tget_lt_of_some hd
    have hsl := hslots hndl hlt d0 hd
    obtain ⟨hdh, hds, hdsu, hdb, hdm⟩ := hsl
    have hbeq : bound64 d0.paddr d0.size = d0.paddr + d0.size - 1 := bound64_eq hds hdb
    have hnotfree : hndl ∉ s.free_hndls := by
      intro hc
      rw [(hfcoh hndl hc).2] at hd
      cases hd
    rw [hbeq]
    refine ⟨?_, ?_, ?_, ?_, ?_, ?_, ?_, ?_⟩
    · exact List.Pairwise.sublist (ist_delete_sublist _ _ _) hpw
    · intro e he
      exact hval e (mem_ist_delete.1 he).1
    · intro e he
      obtain ⟨hem, hene⟩ := mem_ist_delete.1 he
      have hc := hcoh e hem
      have hvne : e.2.2 ≠ hndl := by
        intro hch
        rw [hch, hd] at hc
        injection hc with hc2
        have hdp := congrArg RIODesc.paddr hc2
        have hdsz := congrArg RIODesc.size hc2
        dsimp only at hdp hdsz
        have hev := hval e hem
        exact hene ⟨by omega, by omega⟩
      show (s.hndl_to_descs.set hndl none).getD e.2.2 none = _
      rw [tget_set_ne (fun hc2 => hvne hc2.symm)]
      exact hc
    · intro i hi d2 hd2
      unfold hndl_to_desc at hd2
      dsimp only at hd2 hi
      rw [List.length_set] at hi
      by_cases hih : i = hndl
      · subst hih
        rw [tget_set_self hi] at hd2
        cases hd2
      · rw [tget_set_ne (fun hc2 => hih hc2.symm)] at hd2
        have hsl2 := hslots i hi d2 hd2
        obtain ⟨h1, h2, h2u, h3, h4⟩ := hsl2
        refine ⟨h1, h2, h2u, h3, ?_⟩
        rw [mem_ist_delete]
        refine ⟨h4, ?_⟩
        rintro ⟨hb1, hb2⟩
        have hne : ((d2.paddr, d2.paddr + d2.size - 1, i) : ISTEntry) ≠
            (d0.paddr, d0.paddr + d0.size - 1, hndl) := by
          intro hc2
          have : i = hndl := congrArg (fun e : ISTEntry => e.2.2) hc2
          exact hih this
        have hdisj := pairwise_mem_disj hpw h4 hdm hne
        have hv1 := hval _ hdm
        simp only at hdisj hv1
        omega
    · simpa using hnext
    · exact heapPush_pairwise hfpw hnotfree
    · intro g hg
      dsimp only at hg ⊢
      rcases mem_heapPush.1 hg with rfl | hgf
      · refine ⟨by omega, ?_⟩
        show (s.hndl_to_descs.set g none).getD g none = none
        rw [tget_set_self hlt]
      · have hgc := hfcoh g hgf
        refine ⟨hgc.1, ?_⟩
        show (s.hndl_to_descs.set hndl none).getD g none = none
        have hgne : hndl ≠ g := by
          intro hc
          subst hc
          exact hnotfree hgf
        rw [tget_set_ne hgne]
        exact hgc.2
    · have hdel := length_ist_delete hpw (fun e he => (hval e he).1) hdm
      have hlc := filter_isSome_set_none (l := s.hndl_to_descs) (i := hndl) hd
      unfold IST.size liveCount at hsize ⊢
      dsimp only
      omega

/-- Registering a descriptor and placing it on a non-overlapping range
preserves the data-structure invariant. -/
theorem stateOK_place {s : RIODescQuery} (hok : StateOK s) {size hndl : Nat}
    {s1 : RIODescQuery} {lo : Nat}
    (hs : 1 ≤ size) (hsu : size < U64MOD) (hb : lo + size ≤ U64MOD)
    (hrh : register_handle s size = (hndl, s1))
    (hov : (IST.overlap s1.paddr_to_hndls lo (bound64 lo size)).isEmpty = true) :
    StateOK
      { s1 with
        hndl_to_descs :=
          s1.hndl_to_descs.set hndl (some { hndl := hndl, paddr := lo, size := size }),
        paddr_to_hndls := IST.insert s1.paddr_to_hndls lo (bound64 lo size) hndl } := by
  obtain ⟨hndl2, s2, hrh2, hpeq, hdead, hd1, hother, hlt, hnext1, hfpw1, hfcoh1, hlive1,
    hcase1⟩ := register_handle_spec hok size
  rw [hrh] at hrh2
  have he1 := congrArg Prod.fst hrh2
  have he2 := congrArg Prod.snd hrh2
  dsimp only at he1 he2
  subst he1
  subst he2
  obtain ⟨hpw, hval, hcoh, hslots, hnext, hfpw, hfcoh, hsize⟩ := hok
  have hieq : bound64 lo size = lo + size - 1 := bound64_eq hs hb
  rw [hieq, hpeq] at hov ⊢
  have hemp := overlap_empty_iff.1 hov
  have hvne : ∀ e ∈ s.paddr_to_hndls, e.2.2 ≠ hndl := by
    intro e he hc
    have h1 := hcoh e he
    rw [hc, hdead] at h1
    cases h1
  refine ⟨?_, ?_, ?_, ?_, ?_, ?_, ?_, ?_⟩
  · dsimp only
    apply ist_insert_pairwise hpw (fun e he => (hval e he).1)
    · intro e he
      have := hemp e he
      omega
    · omega
  · dsimp only
    intro e he
    rcases mem_ist_insert.1 he with rfl | het
    · dsimp only
      exact ⟨by omega, by omega⟩
    · exact hval e het
  · dsimp only
    intro e he
    unfold hndl_to_desc
    dsimp only
    rcases mem_ist_insert.1 he with rfl | het
    · dsimp only
      rw [tget_set_self hlt]
      have hsz : lo + size - 1 + 1 - lo = size := by omega
      rw [hsz]
    · rw [tget_set_ne (fun hc => (hvne e het) hc.symm)]
      exact (hother e.2.2 (hvne e het)).trans (hcoh e het)
  · intro i hi2 d2 hd2
    unfold hndl_to_desc at hd2
    dsimp only at hd2 hi2
    rw [List.length_set] at hi2
    by_cases hih : i = hndl
    · subst hih
      rw [tget_set_self hlt] at hd2
      injection hd2 with hd2
      subst hd2
      refine ⟨rfl, hs, hsu, hb, ?_⟩
      dsimp only
      exact mem_ist_insert.2 (Or.inl rfl)
    · rw [tget_set_ne (fun hc => hih hc.symm)] at hd2
      have hd2s : hndl_to_desc s i = some d2 := (hother i hih).symm.trans hd2
      have hsl := hslots i (tget_lt_of_some hd2s) d2 hd2s
      obtain ⟨h1, h2, h2u, h3, h4⟩ := hsl
      refine ⟨h1, h2, h2u, h3, ?_⟩
      dsimp only
      exact mem_ist_insert.2 (Or.inr h4)
  · dsimp only
    rw [List.length_set]
    exact hnext1
  · exact hfpw1
  · intro g hg
    dsimp only at hg ⊢
    have hgc := hfcoh1 g hg
    refine ⟨hgc.1, ?_⟩
    unfold hndl_to_desc
    dsimp only
    have hgne : hndl ≠ g := by
      intro hc
      subst hc
      rw [hgc.2] at hd1
      cases hd1
    rw [tget_set_ne hgne]
    exact hgc.2
  · have hins := length_ist_insert s.paddr_to_hndls lo (lo + size - 1) hndl
    have hset := filter_isSome_set_over_some
      (d := { hndl := hndl, paddr := lo, size := size }) hd1
    unfold liveCount at hlive1
    unfold IST.size liveCount at hsize ⊢
    dsimp only
    omega

/-- A successful `register_open_at` with a wrap-free in-range target
preserves the data-structure invariant. -/
theorem stateOK_open_at {s : RIODescQuery} (hok : StateOK s)
    {size addr hndl : Nat} {s2 : RIODescQuery}
    (hs : 1 ≤ size) (hsu : size < U64MOD) (hb : addr + size ≤ U64MOD)
    (h : register_open_at s size addr = some (Except.ok hndl, s2)) : StateOK s2 := by
  obtain ⟨hndl1, s1, hrh, hpeq, hdead, hd1, hother, hlt, hnext1, hfpw1, hfcoh1, hlive1,
    hcase1⟩ := register_handle_spec hok size
  cases hov : (IST.overlap s1.paddr_to_hndls addr (bound64 addr size)).isEmpty with
  | true =>
    rw [register_open_at_ok hrh hd1 hov] at h
    injection h with h2
    have he2 := congrArg Prod.snd h2
    dsimp only at he2
    rw [← he2]
    exact stateOK_place hok hs hsu hb hrh hov
  | false =>
    rw [register_open_at_err hrh hd1 hov] at h
    simp at h

/-- A successful `register_open` whose placement ended at a wrap-free
in-range address preserves the data-structure invariant. -/
theorem stateOK_open {s : RIODescQuery} (hok : StateOK s)
    {size hndl : Nat} {s2 : RIODescQuery}
    (hs : 1 ≤ size) (hsu : size < U64MOD)
    (h : register_open s size = some (hndl, s2))
    (hend : ∀ d ∈ hndl_to_desc s2 hndl, d.paddr + d.size ≤ U64MOD) : StateOK s2 := by
  obtain ⟨hndl1, s1, hrh, hpeq, hdead, hd1, hother, hlt, hnext1, hfpw1, hfcoh1, hlive1,
    hcase1⟩ := register_handle_spec hok size
  cases hpl : place_loop s1 size 0 (IST.size s1.paddr_to_hndls + 1) with
  | none =>
    rw [register_open, hrh] at h
    dsimp only at h
    rw [show hndl_to_desc s1 hndl1 = _ from hd1] at h
    dsimp only at h
    rw [hpl] at h
    cases h
  | some lo =>
    have hoeq := register_open_eq hrh hd1 (by exact hpl)
    rw [hoeq] at h
    injection h with h2
    have he1 := congrArg Prod.fst h2
    have he2 := congrArg Prod.snd h2
    dsimp only at he1 he2
    subst he1
    have hlook : hndl_to_desc s2 hndl1 =
        some { hndl := hndl1, paddr := lo, size := size } := by
      rw [← he2]
      unfold hndl_to_desc
      dsimp only
      rw [tget_set_self hlt]
    have hb : lo + size ≤ U64MOD := by
      have := hend { hndl := hndl1, paddr := lo, size := size } (Option.mem_def.2 hlook)
      exact this
    rw [← he2]
    exact stateOK_place hok hs hsu hb hrh (place_loop_spec hpl)

/-- The empty state satisfies the invariant. -/
theorem stateOK_new : StateOK RIODescQuery.new := by decide

/-- Every checked operation preserves the data-structure invariant. -/
theorem stateOK_runOpChecked {s s2 : RIODescQuery} {op : RIOOp}
    (hok : StateOK s) (h : runOpChecked s op = some s2) : StateOK s2 := by
  cases op with
  | op_open size =>
    rw [runOpChecked] at h
    split at h
    · rename_i hcond
      cases hro : register_open s size with
      | none => rw [hro] at h; cases h
      | some p =>
        rw [hro] at h
        dsimp only at h
        split at h
        · injection h with h2
          subst h2
          exact stateOK_open hok hcond.1 hcond.2 (by rw [hro]) (by assumption)
        · cases h
    · cases h
  | op_open_at size addr =>
    rw [runOpChecked] at h
    split at h
    · rename_i hcond
      cases hro : register_open_at s size addr with
      | none => rw [hro] at h; cases h
      | some p =>
        rw [hro] at h
        match p with
        | (Except.ok g, s3) =>
          dsimp only at h
          injection h with h2
          subst h2
          exact stateOK_open_at hok hcond.1.1 hcond.1.2 hcond.2 hro
        | (Except.error e, s3) => dsimp only at h; cases h
    · cases h
  | op_close hndl =>
    rw [runOpChecked] at h
    cases hc : close s hndl with
    | mk r s3 =>
      rw [hc] at h
      match r with
      | Except.ok d =>
        dsimp only at h
        injection h with h2
        subst h2
        exact stateOK_close hok hc
      | Except.error e => dsimp only at h; cases h

/-- Every state reached by a checked operation sequence satisfies the
invariant. -/
theorem stateOK_runOpsChecked {s s2 : RIODescQuery} {ops : List RIOOp}
    (hok : StateOK s) (h : runOpsChecked s ops = some s2) : StateOK s2 := by
  induction ops generalizing s with
  | nil =>
    rw [runOpsChecked] at h
    injection h with h2
    subst h2
    exact hok
  | cons op rest ih =>
    rw [runOpsChecked] at h
    cases ho : runOpChecked s op with
    | none => rw [ho] at h; cases h
    | some s1 =>
      rw [ho] at h
      exact ih (stateOK_runOpChecked hok ho) h

/-! Termination measure for the first-fit placement loop. -/

theorem length_filter_mono {α : Type} {l : List α} {p1 p2 : α → Bool}
    (himp : ∀ x ∈ l, p2 x = true → p1 x = true) :
    (l.filter p2).length ≤ (l.filter p1).length := by
  induction l with
  | nil => simp
  | cons a t ih =>
    have iht := ih (fun x hx => himp x (List.mem_cons.2 (Or.inr hx)))
    cases h2 : p2 a with
    | true =>
      have h1 := himp a (List.mem_cons_self a t) h2
      simp [List.filter, h1, h2]
      omega
    | false =>
      cases h1 : p1 a with
      | true =>
        simp [List.filter, h1, h2]
        omega
      | false =>
        simp [List.filter, h1, h2]
        omega

theorem length_filter_lt {α : Type} {l : List α} {p1 p2 : α → Bool}
    (himp : ∀ x ∈ l, p2 x = true → p1 x = true)
    {x0 : α} (hx0 : x0 ∈ l) (h1 : p1 x0 = true) (h2 : p2 x0 = false) :
    (l.filter p2).length < (l.filter p1).length := by
  induction l with
  | nil => cases hx0
  | cons a t ih =>
    have himpt : ∀ x ∈ t, p2 x = true → p1 x = true :=
      fun x hx => himp x (List.mem_cons.2 (Or.inr hx))
    rcases List.mem_cons.1 hx0 with rfl | hx0t
    · have hmono := length_filter_mono himpt
      simp [List.filter, h1, h2]
      omega
    · have iht := ih himpt hx0t
      cases ha2 : p2 a with
      | true =>
        have ha1 := himp a (List.mem_cons_self a t) ha2
        simp [List.filter, ha1, ha2]
        omega
      | false =>
        cases ha1 : p1 a with
        | true =>
          simp [List.filter, ha1, ha2]
          omega
        | false =>
          simp [List.filter, ha1, ha2]
          omega

/-- When the overlap query at candidate `lo` is non-empty and no live
interval reaches the top address, the loop body advances to a strictly
larger candidate and strictly shrinks the number of intervals ending at or
above the candidate. -/
theorem place_next_step {s : RIODescQuery} (hok : StateOK s)
    (hnotop : ∀ e ∈ s.paddr_to_hndls, e.2.1 + 1 < U64MOD)
    {size lo : Nat}
    (hne : (IST.overlap s.paddr_to_hndls lo (bound64 lo size)).isEmpty = false) :
    ∃ lo2, place_next s size lo = some lo2 ∧ lo < lo2 ∧
      ((s.paddr_to_hndls.filter (fun e => decide (lo2 ≤ e.2.1))).length <
       (s.paddr_to_hndls.filter (fun e => decide (lo ≤ e.2.1))).length) := by
  obtain ⟨hpw, hval, hcoh, hslots, hnext, hfpw, hfcoh, hsize⟩ := hok
  have hnn : IST.overlap s.paddr_to_hndls lo (bound64 lo size) ≠ [] :=
    List.isEmpty_eq_false.1 hne
  cases hgl : (IST.overlap s.paddr_to_hndls lo (bound64 lo size)).getLast? with
  | none =>
    rw [List.getLast?_eq_none_iff] at hgl
    exact absurd hgl hnn
  | some h0 =>
    have hmem := List.mem_of_mem_getLast? hgl
    rw [IST.overlap] at hmem
    obtain ⟨e, hee, hev⟩ := List.mem_map.1 hmem
    obtain ⟨hei, helo, hehi⟩ := mem_overlapEnts.1 hee
    have hc := hcoh e hei
    have hv := hval e hei
    have ht := hnotop e hei
    refine ⟨e.2.1 + 1, ?_, by omega, ?_⟩
    · rw [place_next, hgl]
      dsimp only
      have hc2 : s.hndl_to_descs.getD h0 none =
          some { hndl := e.2.2, paddr := e.1, size := e.2.1 + 1 - e.1 } := by
        rw [← hev]
        exact hc
      rw [hc2]
      dsimp only
      rw [wadd_eq (by omega)]
      congr 1
      omega
    · refine length_filter_lt ?_ hei ?_ ?_
      · intro x hx hx2
        simp only [decide_eq_true_eq] at *
        omega
      · simp only [decide_eq_true_eq]
        omega
      · simp only [decide_eq_false_iff_not, decide_eq_true_eq]
        omega

/-- With fuel one more than the number of intervals ending at or above the
start candidate, the placement loop reaches an empty overlap result. -/
theorem place_loop_fuel {s : RIODescQuery} (hok : StateOK s)
    (hnotop : ∀ e ∈ s.paddr_to_hndls, e.2.1 + 1 < U64MOD) (size : Nat) :
    ∀ n lo, (s.paddr_to_hndls.filter (fun e => decide (lo ≤ e.2.1))).length ≤ n →
      (place_loop s size lo (n + 1)).isSome := by
  intro n
  induction n with
  | zero =>
    intro lo hm
    rw [place_loop]
    cases hemp : (IST.overlap s.paddr_to_hndls lo (bound64 lo size)).isEmpty with
    | true => simp
    | false =>
      obtain ⟨lo2, hpn, hlt, hdec⟩ := place_next_step hok hnotop hemp
      omega
  | succ m ih =>
    intro lo hm
    rw [place_loop]
    cases hemp : (IST.overlap s.paddr_to_hndls lo (bound64 lo size)).isEmpty with
    | true => simp
    | false =>
      obtain ⟨lo2, hpn, hlt, hdec⟩ := place_next_step hok hnotop hemp
      rw [hpn]
      dsimp only
      exact ih lo2 (by omega)

/-- The placement loop of `register_open` succeeds within
`IST.size + 1` overlap queries on every invariant state whose intervals
stay below the top address. -/
theorem place_loop_terminates {s : RIODescQuery} (hok : StateOK s)
    (hnotop : ∀ e ∈ s.paddr_to_hndls, e.2.1 + 1 < U64MOD) (size lo : Nat) :
    (place_loop s size lo (IST.size s.paddr_to_hndls + 1)).isSome := by
  apply place_loop_fuel hok hnotop size (IST.size s.paddr_to_hndls) lo
  unfold IST.size
  exact List.length_filter_le _ _

/-- Facts about an index entry under the invariant: its handle leads to
the matching descriptor and its bounds are a valid `u64` interval of
representable length. -/
theorem ent_facts {s : RIODescQuery} (hok : StateOK s) {e : ISTEntry}
    (he : e ∈ s.paddr_to_hndls) :
    hndl_to_desc s e.2.2 = some { hndl := e.2.2, paddr := e.1, size := e.2.1 + 1 - e.1 } ∧
    e.1 ≤ e.2.1 ∧ e.2.1 < U64MOD ∧ e.2.1 + 1 - e.1 < U64MOD := by
  obtain ⟨hpw, hval, hcoh, hslots, hrest⟩ := hok
  have hc := hcoh e he
  have hv := hval e he
  have hlt : e.2.2 < s.hndl_to_descs.length := tget_lt_of_some hc
  have hsl := hslots e.2.2 hlt _ hc
  exact ⟨hc, hv.1, hv.2, hsl.2.2.1⟩

theorem covers_intro {s : RIODescQuery} {x : Nat} {e : ISTEntry}
    (he : e ∈ s.paddr_to_hndls) (h1 : e.1 ≤ x) (h2 : x ≤ e.2.1) : Covers s x :=
  ⟨e, he, h1, h2⟩

/-- The chunk-emitting loop, run on candidate entries that are exactly the
live intervals meeting the current window, succeeds precisely when the
window is fully covered by live intervals. -/
theorem range_loop_covers {s : RIODescQuery} (hok : StateOK s)
    (es : List ISTEntry) :
    ∀ start remaining : Nat,
      (∀ e ∈ es, e ∈ s.paddr_to_hndls) →
      List.Pairwise entDisj es →
      (∀ e ∈ es, e.1 ≤ start + remaining - 1 ∧ start ≤ e.2.1) →
      (∀ e ∈ s.paddr_to_hndls, ∀ x, start ≤ x → x ≤ start + remaining - 1 →
        e.1 ≤ x → x ≤ e.2.1 → e ∈ es) →
      1 ≤ start + remaining →
      start + remaining ≤ U64MOD →
      start < U64MOD →
      ((range_loop s (es.map (fun e => e.2.2)) start remaining).isSome = true ↔
        ∀ x, start ≤ x → x ≤ start + remaining - 1 → Covers s x) := by
  induction es with
  | nil =>
    intro start remaining hsub hpw hB hC hpos hbound hstart
    by_cases hr : remaining = 0
    · subst hr
      simp only [List.map_nil, range_loop, if_pos rfl, Option.isSome_some]
      constructor
      · intro _ x hx1 hx2
        exfalso
        omega
      · intro _
        rfl
    · simp only [List.map_nil, range_loop]
      rw [if_neg hr]
      simp only [Option.isSome_none, Bool.false_eq_true, false_iff]
      intro hcov
      obtain ⟨e, he, h1, h2⟩ := hcov start (Nat.le_refl start) (by omega)
      exact absurd (hC e he start (Nat.le_refl start) (by omega) h1 h2)
        (List.not_mem_nil e)
  | cons e0 rest ih =>
    intro start remaining hsub hpw hB hC hpos hbound hstart
    have he0i : e0 ∈ s.paddr_to_hndls := hsub e0 (List.mem_cons_self e0 rest)
    obtain ⟨hc0, hv01, hv02, hszu⟩ := ent_facts hok he0i
    obtain ⟨hpwh, hpwt⟩ := List.pairwise_cons.1 hpw
    have hB0 := hB e0 (List.mem_cons_self e0 rest)
    rw [List.map_cons]
    simp only [range_loop]
    rw [hc0]
    dsimp only
    by_cases hgap : start < e0.1
    · rw [if_pos hgap]
      simp only [Option.isSome_none, Bool.false_eq_true, false_iff]
      intro hcov
      obtain ⟨e, he, hex1, hex2⟩ := hcov start (Nat.le_refl start) (by omega)
      have hmem := hC e he start (Nat.le_refl start) (by omega) hex1 hex2
      rcases List.mem_cons.1 hmem with rfl | hmt
      · omega
      · have hd := hpwh e hmt
        unfold entDisj at hd
        omega
    · rw [if_neg hgap]
      have hstle : e0.1 ≤ start := Nat.le_of_not_lt hgap
      have hse : start ≤ e0.2.1 := hB0.2
      have hws : wsub (e0.2.1 + 1 - e0.1) (start - e0.1) = e0.2.1 + 1 - start := by
        rw [wsub_eq (by omega) hszu]
        omega
      rw [hws]
      have hdsj : (min remaining (e0.2.1 + 1 - start) = remaining ∧
            remaining ≤ e0.2.1 + 1 - start) ∨
          (min remaining (e0.2.1 + 1 - start) = e0.2.1 + 1 - start ∧
            e0.2.1 + 1 - start ≤ remaining) := by
        rcases Nat.le_total remaining (e0.2.1 + 1 - start) with hmle | hmle
        · exact Or.inl ⟨min_eq_left hmle, hmle⟩
        · exact Or.inr ⟨min_eq_right hmle, hmle⟩
      have hdle : min remaining (e0.2.1 + 1 - start) ≤ remaining := Nat.min_le_left _ _
      have hcap : start + min remaining (e0.2.1 + 1 - start) ≤ e0.2.1 + 1 := by omega
      rcases Nat.lt_or_ge (start + min remaining (e0.2.1 + 1 - start)) U64MOD with
        hw | hw
      · -- the cursor advance does not wrap
        rw [wadd_eq hw]
        have hsub2 : ∀ e ∈ rest, e ∈ s.paddr_to_hndls :=
          fun e he => hsub e (List.mem_cons.2 (Or.inr he))
        have hB2 : ∀ e ∈ rest,
            e.1 ≤ start + min remaining (e0.2.1 + 1 - start) +
              (remaining - min remaining (e0.2.1 + 1 - start)) - 1 ∧
            start + min remaining (e0.2.1 + 1 - start) ≤ e.2.1 := by
          intro e he
          have hb := hB e (List.mem_cons.2 (Or.inr he))
          have hdj := hpwh e he
          unfold entDisj at hdj
          have hef := ent_facts hok (hsub2 e he)
          exact ⟨by omega, by omega⟩
        have hC2 : ∀ e ∈ s.paddr_to_hndls, ∀ x,
            start + min remaining (e0.2.1 + 1 - start) ≤ x →
            x ≤ start + min remaining (e0.2.1 + 1 - start) +
              (remaining - min remaining (e0.2.1 + 1 - start)) - 1 →
            e.1 ≤ x → x ≤ e.2.1 → e ∈ rest := by
          intro e he x hx1 hx2 hx3 hx4
          have hin := hC e he x (by omega) (by omega) hx3 hx4
          rcases List.mem_cons.1 hin with rfl | hr
          · exfalso
            omega
          · exact hr
        have hIH := ih (start + min remaining (e0.2.1 + 1 - start))
          (remaining - min remaining (e0.2.1 + 1 - start))
          hsub2 hpwt hB2 hC2 (by omega) (by omega) hw
        cases hR : range_loop s (rest.map (fun e => e.2.2))
            (start + min remaining (e0.2.1 + 1 - start))
            (remaining - min remaining (e0.2.1 + 1 - start)) with
        | none =>
          rw [hR] at hIH
          simp only [Option.isSome_none, Bool.false_eq_true, false_iff] at hIH ⊢
          intro hcov
          apply hIH
          intro x hx1 hx2
          exact hcov x (by omega) (by omega)
        | some l =>
          rw [hR] at hIH
          simp only [Option.isSome_some, true_iff] at hIH ⊢
          intro x hx1 hx2
          by_cases hxlt : x < start + min remaining (e0.2.1 + 1 - start)
          · exact covers_intro he0i (by omega) (by omega)
          · exact hIH x (by omega) (by omega)
      · -- the cursor advance reaches exactly 2^64: the window ends at the
        -- top address, the emitted chunk exhausts it, and no further
        -- candidate can exist
        have hweq : start + min remaining (e0.2.1 + 1 - start) = U64MOD := by omega
        have hdr : min remaining (e0.2.1 + 1 - start) = remaining := by omega
        have hrest : rest = [] := by
          rw [List.eq_nil_iff_forall_not_mem]
          intro e he
          have hdj := hpwh e he
          unfold entDisj at hdj
          have hef := ent_facts hok (hsub e (List.mem_cons.2 (Or.inr he)))
          omega
        rw [hrest, wadd_wrap hweq]
        simp only [List.map_nil, range_loop]
        rw [if_pos (by omega)]
        dsimp only
        simp only [Option.isSome_some, true_iff]
        intro x hx1 hx2
        exact covers_intro he0i (by omega) (by omega)

/-- `paddr_range_to_hndl` succeeds exactly on fully covered ranges. -/
theorem paddr_range_covers {s : RIODescQuery} (hok : StateOK s)
    {paddr size : Nat} (hs : 1 ≤ size) (hb : paddr + size ≤ U64MOD) :
    ((paddr_range_to_hndl s paddr size).isSome = true ↔
      ∀ x, paddr ≤ x → x ≤ paddr + size - 1 → Covers s x) := by
  have hbeq : bound64 paddr size = paddr + size - 1 := bound64_eq hs hb
  unfold paddr_range_to_hndl
  rw [hbeq]
  dsimp only
  by_cases hemp :
      (IST.overlap s.paddr_to_hndls paddr (paddr + size - 1)).isEmpty = true
  · rw [if_pos hemp]
    simp only [Option.isSome_none, Bool.false_eq_true, false_iff]
    intro hcov
    obtain ⟨e, he, h1, h2⟩ := hcov paddr (Nat.le_refl paddr) (by omega)
    have := overlap_empty_iff.1 hemp e he
    omega
  · rw [if_neg hemp]
    rw [show IST.overlap s.paddr_to_hndls paddr (paddr + size - 1) =
      (IST.overlapEnts s.paddr_to_hndls paddr (paddr + size - 1)).map
        (fun e => e.2.2) from rfl]
    apply range_loop_covers hok
    · intro e he
      exact (mem_overlapEnts.1 he).1
    · exact List.Pairwise.sublist (overlapEnts_sublist _ _ _) hok.1
    · intro e he
      obtain ⟨hm, h1, h2⟩ := mem_overlapEnts.1 he
      exact ⟨h1, h2⟩
    · intro e he x hx1 hx2 hx3 hx4
      exact mem_overlapEnts.2 ⟨he, by omega, by omega⟩
    · omega
    · exact hb
    · omega

/-- Under the invariant, the spec's candidate descriptors are exactly the
overlap entries with their recorded addresses and sizes. -/
theorem filterMap_lookup {s : RIODescQuery} (hok : StateOK s)
    (es : List ISTEntry) (hsub : ∀ e ∈ es, e ∈ s.paddr_to_hndls) :
    (es.map (fun e => e.2.2)).filterMap
        (fun h => (hndl_to_desc s h).map (fun d => (h, d.paddr, d.size))) =
      es.map (fun e => (e.2.2, e.1, e.2.1 + 1 - e.1)) := by
  induction es with
  | nil => rfl
  | cons e0 rest ih =>
    have hc0 := (ent_facts hok (hsub e0 (List.mem_cons_self e0 rest))).1
    simp only [List.map_cons, List.filterMap_cons, hc0, Option.map_some]
    rw [ih (fun e he => hsub e (List.mem_cons.2 (Or.inr he)))]
    rfl

theorem specCandidates_eq {s : RIODescQuery} (hok : StateOK s)
    {paddr size : Nat} :
    specCandidates s paddr size =
      (IST.overlapEnts s.paddr_to_hndls paddr (paddr + size - 1)).map
        (fun e => (e.2.2, e.1, e.2.1 + 1 - e.1)) := by
  unfold specCandidates
  rw [show IST.overlap s.paddr_to_hndls paddr (paddr + size - 1) =
    (IST.overlapEnts s.paddr_to_hndls paddr (paddr + size - 1)).map
      (fun e => e.2.2) from rfl]
  exact filterMap_lookup hok _ (fun e he => (mem_overlapEnts.1 he).1)

/-- The chunk-emitting loop agrees with the spec's cursor algorithm on
candidates drawn from the live intervals meeting the window. -/
theorem range_loop_spec_chunks {s : RIODescQuery} (hok : StateOK s)
    (es : List ISTEntry) :
    ∀ start remaining : Nat,
      (∀ e ∈ es, e ∈ s.paddr_to_hndls) →
      List.Pairwise entDisj es →
      (∀ e ∈ es, e.1 ≤ start + remaining - 1 ∧ start ≤ e.2.1) →
      1 ≤ start + remaining →
      start + remaining ≤ U64MOD →
      start < U64MOD →
      range_loop s (es.map (fun e => e.2.2)) start remaining =
        spec_chunks (es.map (fun e => (e.2.2, e.1, e.2.1 + 1 - e.1)))
          start remaining := by
  induction es with
  | nil =>
    intro start remaining hsub hpw hB hpos hbound hstart
    rfl
  | cons e0 rest ih =>
    intro start remaining hsub hpw hB hpos hbound hstart
    have he0i : e0 ∈ s.paddr_to_hndls := hsub e0 (List.mem_cons_self e0 rest)
    obtain ⟨hc0, hv01, hv02, hszu⟩ := ent_facts hok he0i
    obtain ⟨hpwh, hpwt⟩ := List.pairwise_cons.1 hpw
    have hB0 := hB e0 (List.mem_cons_self e0 rest)
    rw [List.map_cons, List.map_cons]
    simp only [range_loop, spec_chunks]
    rw [hc0]
    dsimp only
    by_cases hgap : start < e0.1
    · rw [if_pos hgap, if_pos hgap]
    · rw [if_neg hgap, if_neg hgap]
      have hstle : e0.1 ≤ start := Nat.le_of_not_lt hgap
      have hse : start ≤ e0.2.1 := hB0.2
      have hws : wsub (e0.2.1 + 1 - e0.1) (start - e0.1) = e0.2.1 + 1 - start := by
        rw [wsub_eq (by omega) hszu]
        omega
      have hns : e0.2.1 + 1 - e0.1 - (start - e0.1) = e0.2.1 + 1 - start := by
        omega
      rw [hws, hns]
      have hdle : min remaining (e0.2.1 + 1 - start) ≤ remaining := Nat.min_le_left _ _
      have hcap : start + min remaining (e0.2.1 + 1 - start) ≤ e0.2.1 + 1 := by omega
      rcases Nat.lt_or_ge (start + min remaining (e0.2.1 + 1 - start)) U64MOD with
        hw | hw
      · rw [wadd_eq hw]
        have hIH := ih (start + min remaining (e0.2.1 + 1 - start))
          (remaining - min remaining (e0.2.1 + 1 - start))
          (fun e he => hsub e (List.mem_cons.2 (Or.inr he))) hpwt
          (by
            intro e he
            have hb := hB e (List.mem_cons.2 (Or.inr he))
            have hdj := hpwh e he
            unfold entDisj at hdj
            have hef := ent_facts hok (hsub e (List.mem_cons.2 (Or.inr he)))
            exact ⟨by omega, by omega⟩)
          (by omega) (by omega) hw
        rw [hIH]
      · have hweq : start + min remaining (e0.2.1 + 1 - start) = U64MOD := by omega
        have hrest : rest = [] := by
          rw [List.eq_nil_iff_forall_not_mem]
          intro e he
          have hdj := hpwh e he
          unfold entDisj at hdj
          have hef := ent_facts hok (hsub e (List.mem_cons.2 (Or.inr he)))
          omega
        rw [hrest, wadd_wrap hweq]
        simp only [List.map_nil, range_loop, spec_chunks]

/-- Under the invariant, on a wrap-free query range the code's
`paddr_range_to_hndl` computes exactly the spec's
`address_range_to_handles` cursor algorithm. -/
theorem paddr_range_spec_eq {s : RIODescQuery} (hok : StateOK s)
    {paddr size : Nat} (hs : 1 ≤ size) (hb : paddr + size ≤ U64MOD) :
    paddr_range_to_hndl s paddr size = address_range_to_handles_spec s paddr size := by
  unfold address_range_to_handles_spec
  rw [specCandidates_eq hok]
  unfold paddr_range_to_hndl
  rw [bound64_eq hs hb]
  dsimp only
  by_cases hemp :
      (IST.overlap s.paddr_to_hndls paddr (paddr + size - 1)).isEmpty = true
  · rw [if_pos hemp]
    have hnil : IST.overlapEnts s.paddr_to_hndls paddr (paddr + size - 1) = [] := by
      have h1 := List.isEmpty_iff.1 hemp
      rw [IST.overlap] at h1
      exact List.map_eq_nil_iff.1 h1
    rw [hnil]
    simp only [List.map_nil, spec_chunks]
    rw [if_neg (by omega)]
  · rw [if_neg hemp]
    rw [show IST.overlap s.paddr_to_hndls paddr (paddr + size - 1) =
      (IST.overlapEnts s.paddr_to_hndls paddr (paddr + size - 1)).map
        (fun e => e.2.2) from rfl]
    apply range_loop_spec_chunks hok
    · intro e he
      exact (mem_overlapEnts.1 he).1
    · exact List.Pairwise.sublist (overlapEnts_sublist _ _ _) hok.1
    · intro e he
      obtain ⟨hm, h1, h2⟩ := mem_overlapEnts.1 he
      exact ⟨h1, h2⟩
    · omega
    · exact hb
    · omega

/-! Small-step evaluation helpers for concrete scenarios. -/

theorem place_loop_empty {s : RIODescQuery} {size lo fuel : Nat}
    (h : (IST.overlap s.paddr_to_hndls lo (bound64 lo size)).isEmpty = true) :
    place_loop s size lo (fuel + 1) = some lo := by
  rw [place_loop, if_pos h]

theorem place_loop_step {s : RIODescQuery} {size lo fuel lo2 : Nat}
    (h : (IST.overlap s.paddr_to_hndls lo (bound64 lo size)).isEmpty = false)
    (h2 : place_next s size lo = some lo2) :
    place_loop s size lo (fuel + 1) = place_loop s size lo2 fuel := by
  rw [place_loop, if_neg (by simp [h]), h2]

theorem heapPush_min {t : List Nat} {h : Nat} (hmin : ∀ g ∈ t, h < g) :
    heapPush t h = h :: t := by
  cases t with
  | nil => rfl
  | cons u r =>
    rw [heapPush, if_pos (Nat.le_of_lt (hmin u (List.mem_cons_self u r)))]

/-- Inversion of a successful `close`. -/
theorem close_ok_inv {s : RIODescQuery} {hndl : Nat} {d : RIODesc}
    {s2 : RIODescQuery} (hc : close s hndl = (Except.ok d, s2)) :
    hndl_to_desc s hndl = some d ∧
    s2 = { s with
      hndl_to_descs := s.hndl_to_descs.set hndl none,
      free_hndls := heapPush s.free_hndls hndl,
      paddr_to_hndls :=
        IST.delete_envelop s.paddr_to_hndls d.paddr (bound64 d.paddr d.size) } := by
  cases hd : hndl_to_desc s hndl with
  | none =>
    rw [close_err hd] at hc
    have h1 := congrArg Prod.fst hc
    simp at h1
  | some d0 =>
    rw [close_ok hd] at hc
    have h1 := congrArg Prod.fst hc
    have h2 := congrArg Prod.snd hc
    dsimp only at h1 h2
    injection h1 with h1
    subst h1
    exact ⟨rfl, h2.symm⟩

/-- A successful `register_open` returns the handle allocated by
`register_handle` and leaves its free pool and counter untouched. -/
theorem register_open_hndl {s : RIODescQuery} {size h1 : Nat} {s3 : RIODescQuery}
    (h : register_open s size = some (h1, s3)) :
    h1 = (register_handle s size).1 ∧
    s3.free_hndls = (register_handle s size).2.free_hndls ∧
    s3.next_hndl = (register_handle s size).2.next_hndl ∧
    s3.hndl_to_descs.length = (register_handle s size).2.hndl_to_descs.length := by
  rw [register_open] at h
  cases hrh : register_handle s size with
  | mk h0 s1 =>
    rw [hrh] at h
    dsimp only at h
    cases hd : hndl_to_desc s1 h0 with
    | none => rw [hd] at h; cases h
    | some d =>
      rw [hd] at h
      dsimp only at h
      cases hpl : place_loop s1 d.size 0 (IST.size s1.paddr_to_hndls + 1) with
      | none => rw [hpl] at h; cases h
      | some lo =>
        rw [hpl] at h
        dsimp only at h
        injection h with h2
        have ha := congrArg Prod.fst h2
        have hb := congrArg Prod.snd h2
        dsimp only at ha hb
        refine ⟨ha.symm, ?_, ?_, ?_⟩
        · rw [← hb]
        · rw [← hb]
        · rw [← hb]
          dsimp only
          rw [List.length_set]

/-- Round trip of `close` under the invariant: the returned descriptor is
the stored one, the handle lookup becomes absent and every point query
inside the old interval becomes absent. -/
theorem close_round_trip {s : RIODescQuery} (hok : StateOK s) {h : Nat}
    {d : RIODesc} (hd : hndl_to_desc s h = some d) :
    ∃ s2, close s h = (Except.ok d, s2) ∧
      hndl_to_desc s2 h = none ∧
      ∀ x, d.paddr ≤ x → x ≤ d.paddr + d.size - 1 → paddr_to_hndl s2 x = none := by
  obtain ⟨hpw, hval, hcoh, hslots, hnext, hfpw, hfcoh, hsize⟩ := hok
  have hlt : h < s.hndl_to_descs.length := tget_lt_of_some hd
  obtain ⟨hdh, hds, hdsu, hdb, hdm⟩ := hslots h hlt d hd
  refine ⟨_, close_ok hd, ?_, ?_⟩
  · unfold hndl_to_desc
    dsimp only
    rw [tget_set_self hlt]
  · intro x hx1 hx2
    unfold paddr_to_hndl
    dsimp only
    have hnil : IST.point
        (IST.delete_envelop s.paddr_to_hndls d.paddr (bound64 d.paddr d.size)) x = [] := by
      rw [ist_point_nil_iff]
      rintro e he ⟨he1, he2⟩
      rw [bound64_eq hds hdb] at he
      obtain ⟨hei, hene⟩ := mem_ist_delete.1 he
      by_cases heq : e = ((d.paddr, d.paddr + d.size - 1, h) : ISTEntry)
      · subst heq
        exact hene ⟨rfl, rfl⟩
      · have hdisj := pairwise_mem_disj hpw hei hdm heq
        dsimp only at hdisj
        omega
    rw [hnil]

/-- A `register_open_at` on a range that meets a live interval fails with
`AddressesOverlapError`; afterwards every handle lookup, the address
index, the live-descriptor count, and the next handle to be allocated are
unchanged. -/
theorem open_at_overlap_rollback {s : RIODescQuery} (hok : StateOK s)
    {size addr : Nat} (hs : 1 ≤ size) (hb : addr + size ≤ U64MOD)
    (hovl : ∃ e ∈ s.paddr_to_hndls, e.1 ≤ addr + size - 1 ∧ addr ≤ e.2.1) :
    ∃ s2, register_open_at s size addr =
        some (Except.error IoError.AddressesOverlapError, s2) ∧
      (∀ g, hndl_to_desc s2 g = hndl_to_desc s g) ∧
      s2.paddr_to_hndls = s.paddr_to_hndls ∧
      liveCount s2 = liveCount s ∧
      (get_new_hndl s2).1 = (get_new_hndl s).1 := by
  obtain ⟨hndl1, s1, hrh, hpeq, hdead, hd1, hother, hlt, hnext1, hfpw1, hfcoh1, hlive1,
    hcase1⟩ := register_handle_spec hok size
  have hov : (IST.overlap s1.paddr_to_hndls addr (bound64 addr size)).isEmpty = false := by
    rw [hpeq, bound64_eq hs hb]
    obtain ⟨e, he, h1, h2⟩ := hovl
    apply List.isEmpty_eq_false.2
    have hme : e ∈ IST.overlapEnts s.paddr_to_hndls addr (addr + size - 1) :=
      mem_overlapEnts.2 ⟨he, h1, h2⟩
    exact List.ne_nil_of_mem (List.mem_map_of_mem _ hme)
  refine ⟨_, register_open_at_err hrh hd1 hov, ?_, ?_, ?_, ?_⟩
  · intro g
    unfold hndl_to_desc
    dsimp only
    by_cases hg : g = hndl1
    · subst hg
      rw [tget_set_self hlt]
      exact hdead.symm
    · rw [tget_set_ne (fun hc => hg hc.symm)]
      exact hother g hg
  · exact hpeq
  · have hlc := filter_isSome_set_none (l := s1.hndl_to_descs) (i := hndl1) hd1
    unfold liveCount at hlive1 ⊢
    dsimp only
    omega
  · rcases hcase1 with hpop | ⟨hfe, hnf, hf1⟩
    · -- the handle was popped from the pool and is pushed back
      have hmin : ∀ g ∈ s1.free_hndls, hndl1 < g := by
        intro g hg
        have := hok.2.2.2.2.2.1
        rw [hpop] at this
        exact (List.pairwise_cons.1 this).1 g hg
      unfold get_new_hndl
      dsimp only
      rw [heapPush_min hmin, hpop]
    · -- a fresh handle was taken and is now the sole pool element
      unfold get_new_hndl
      dsimp only
      rw [hf1, hfe]
      dsimp only [heapPush]
      rw [hnf]

/-- The allocation rule of `get_new_hndl`: pop the minimum free handle,
or take and advance the counter. -/
theorem get_new_hndl_rule (s : RIODescQuery) :
    (s.free_hndls = [] →
      get_new_hndl s = (s.next_hndl, { s with next_hndl := s.next_hndl + 1 })) ∧
    (∀ h t, s.free_hndls = h :: t →
      get_new_hndl s = (h, { s with free_hndls := t }) ∧
      (List.Pairwise (fun a b => a < b) s.free_hndls → ∀ g ∈ s.free_hndls, h ≤ g)) := by
  constructor
  · intro hf
    rw [get_new_hndl, hf]
  · intro h t hf
    constructor
    · rw [get_new_hndl, hf]
    · intro hpw g hg
      rw [hf] at hpw hg
      rcases List.mem_cons.1 hg with rfl | hgt
      · exact Nat.le_refl g
      · exact Nat.le_of_lt ((List.pairwise_cons.1 hpw).1 g hgt)

/-- Closing `a` then `b` (with `a < b`) into a state with an empty free
pool makes the next two successful opens return `a` then `b`. -/
theorem reuse_order {s : RIODescQuery} (hfe : s.free_hndls = [])
    {a b : Nat} (hab : a < b)
    {da db : RIODesc} {s1 s2 : RIODescQuery}
    (hca : close s a = (Except.ok da, s1))
    (hcb : close s1 b = (Except.ok db, s2))
    {sz1 sz2 h1 h2 : Nat} {s3 s4 : RIODescQuery}
    (ho1 : register_open s2 sz1 = some (h1, s3))
    (ho2 : register_open s3 sz2 = some (h2, s4)) :
    h1 = a ∧ h2 = b := by
  obtain ⟨hda, hs1⟩ := close_ok_inv hca
  obtain ⟨hdb, hs2⟩ := close_ok_inv hcb
  have hf1 : s1.free_hndls = [a] := by
    rw [hs1]
    dsimp only
    rw [hfe]
    rfl
  have hf2 : s2.free_hndls = [a, b] := by
    rw [hs2]
    dsimp only
    rw [hf1]
    unfold heapPush
    rw [if_neg (by omega)]
    rfl
  have hla : a < s2.hndl_to_descs.length := by
    rw [hs2]
    dsimp only
    rw [List.length_set, hs1]
    dsimp only
    rw [List.length_set]
    exact tget_lt_of_some hda
  have hlb : b < s2.hndl_to_descs.length := by
    rw [hs2]
    dsimp only
    rw [List.length_set]
    exact tget_lt_of_some hdb
  have hrh1 := @register_handle_pop s2 sz1 _ _ hf2 hla
  obtain ⟨he1, hfr3, hnr3, hlen3⟩ := register_open_hndl ho1
  rw [hrh1] at he1 hfr3 hnr3 hlen3
  dsimp only at he1 hfr3 hnr3 hlen3
  rw [List.length_set] at hlen3
  have hrh2 := @register_handle_pop s3 sz2 _ _ hfr3 (by omega)
  obtain ⟨he2, hfr4, hnr4, hlen4⟩ := register_open_hndl ho2
  rw [hrh2] at he2
  dsimp only at he2
  exact ⟨he1, he2⟩

/-- An open from a state with no free handles returns the next-counter
value, which differs from every live and every free handle. -/
theorem open_fresh_hndl {s : RIODescQuery} (hok : StateOK s)
    (hfe : s.free_hndls = []) {size h1 : Nat} {s3 : RIODescQuery}
    (ho : register_open s size = some (h1, s3)) :
    h1 = s.next_hndl ∧
    ∀ g, (hndl_to_desc s g ≠ none ∨ g ∈ s.free_hndls) → g < h1 := by
  obtain ⟨he1, hrest⟩ := register_open_hndl ho
  rw [register_handle_fresh hfe hok.2.2.2.2.1] at he1
  dsimp only at he1
  refine ⟨he1, ?_⟩
  intro g hg
  rw [he1, hok.2.2.2.2.1]
  rcases hg with hlive | hfree
  · cases hl : hndl_to_desc s g with
    | none => exact absurd hl hlive
    | some d => exact tget_lt_of_some hl
  · rw [hfe] at hfree
    cases hfree

/-! Concrete first-fit placement scenario with three equal-size
descriptors (claims about monotone placement and range decomposition). -/

/-- State after opening one descriptor of size `S` from the empty state. -/
def state1 (S : Nat) : RIODescQuery :=
  { hndl_to_descs := [some { hndl := 0, paddr := 0, size := S }],
    paddr_to_hndls := [(0, S - 1, 0)],
    next_hndl := 1, free_hndls := [] }

/-- State after opening two descriptors of size `S`. -/
def state2 (S : Nat) : RIODescQuery :=
  { hndl_to_descs := [some { hndl := 0, paddr := 0, size := S },
      some { hndl := 1, paddr := S, size := S }],
    paddr_to_hndls := [(0, S - 1, 0), (S, 2 * S - 1, 1)],
    next_hndl := 2, free_hndls := [] }

/-- State after opening three descriptors of size `S`: they sit at
addresses `0`, `S` and `2 * S`. -/
def threeState (S : Nat) : RIODescQuery :=
  { hndl_to_descs := [some { hndl := 0, paddr := 0, size := S },
      some { hndl := 1, paddr := S, size := S },
      some { hndl := 2, paddr := 2 * S, size := S }],
    paddr_to_hndls := [(0, S - 1, 0), (S, 2 * S - 1, 1), (2 * S, 3 * S - 1, 2)],
    next_hndl := 3, free_hndls := [] }

/-- State after closing the middle handle of `threeState`. -/
def closedState (S : Nat) : RIODescQuery :=
  { hndl_to_descs := [some { hndl := 0, paddr := 0, size := S }, none,
      some { hndl := 2, paddr := 2 * S, size := S }],
    paddr_to_hndls := [(0, S - 1, 0), (2 * S, 3 * S - 1, 2)],
    next_hndl := 3, free_hndls := [1] }

theorem place_next_eval {s : RIODescQuery} {size lo : Nat} {hs : List Nat}
    {h0 : Nat} {d : RIODesc}
    (hov : IST.overlap s.paddr_to_hndls lo (bound64 lo size) = hs)
    (hgl : hs.getLast? = some h0)
    (hgd : s.hndl_to_descs.getD h0 none = some d) :
    place_next s size lo = some (wadd d.paddr d.size) := by
  rw [place_next, hov, hgl]
  dsimp only
  rw [hgd]

theorem open_new_eval {S : Nat} (hS : 1 ≤ S) (hU : 3 * S ≤ U64MOD) :
    register_open RIODescQuery.new S = some (0, state1 S) := by
  have hrh : register_handle RIODescQuery.new S =
      (0, { hndl_to_descs := [some { hndl := 0, paddr := 0, size := S }],
            paddr_to_hndls := [], next_hndl := 1, free_hndls := [] }) := by
    rw [register_handle_fresh rfl rfl]
    rfl
  have hd : hndl_to_desc
      { hndl_to_descs := [some { hndl := 0, paddr := 0, size := S }],
        paddr_to_hndls := ([] : IST), next_hndl := 1, free_hndls := ([] : List Nat) } 0 =
      some { hndl := 0, paddr := 0, size := S } := rfl
  have hpl : place_loop
      { hndl_to_descs := [some { hndl := 0, paddr := 0, size := S }],
        paddr_to_hndls := ([] : IST), next_hndl := 1, free_hndls := ([] : List Nat) }
      S 0 (IST.size ([] : IST) + 1) = some 0 := place_loop_empty rfl
  rw [register_open_eq hrh hd hpl]
  rw [bound64_eq hS (by omega), Nat.zero_add]
  rfl

theorem overlapEnts_cons_pos {e : ISTEntry} {t : IST} {lo hi : Nat}
    (h : e.1 ≤ hi ∧ lo ≤ e.2.1) :
    IST.overlapEnts (e :: t) lo hi = e :: IST.overlapEnts t lo hi := by
  rw [IST.overlapEnts, if_pos h]

theorem overlapEnts_cons_neg {e : ISTEntry} {t : IST} {lo hi : Nat}
    (h : ¬(e.1 ≤ hi ∧ lo ≤ e.2.1)) :
    IST.overlapEnts (e :: t) lo hi = IST.overlapEnts t lo hi := by
  rw [IST.overlapEnts, if_neg h]

theorem ist_insert_cons_le {e : ISTEntry} {t : IST} {lo hi v : Nat}
    (h : lo ≤ e.1) :
    IST.insert (e :: t) lo hi v = (lo, hi, v) :: e :: t := by
  rw [IST.insert, if_pos h]

theorem ist_insert_cons_gt {e : ISTEntry} {t : IST} {lo hi v : Nat}
    (h : ¬ lo ≤ e.1) :
    IST.insert (e :: t) lo hi v = e :: IST.insert t lo hi v := by
  rw [IST.insert, if_neg h]

theorem ist_delete_cons_pos {e : ISTEntry} {t : IST} {lo hi : Nat}
    (h : e.1 = lo ∧ e.2.1 = hi) :
    IST.delete_envelop (e :: t) lo hi = IST.delete_envelop t lo hi := by
  rw [IST.delete_envelop, if_pos h]

theorem ist_delete_cons_neg {e : ISTEntry} {t : IST} {lo hi : Nat}
    (h : ¬(e.1 = lo ∧ e.2.1 = hi)) :
    IST.delete_envelop (e :: t) lo hi = e :: IST.delete_envelop t lo hi := by
  rw [IST.delete_envelop, if_neg h]

theorem range_loop_cons_eval {s : RIODescQuery} {h0 : Nat} {rest : List Nat}
    {start remaining : Nat} {d : RIODesc} {delta : Nat}
    (hd : hndl_to_desc s h0 = some d)
    (hge : d.paddr ≤ start)
    (hdel : min remaining (wsub d.size (start - d.paddr)) = delta) :
    range_loop s (h0 :: rest) start remaining =
      match range_loop s rest (wadd start delta) (remaining - delta) with
      | none => none
      | some l => some ((h0, start, delta) :: l) := by
  simp only [range_loop]
  rw [hd]
  dsimp only
  rw [if_neg (Nat.not_lt.2 hge), hdel]

/-- Intermediate state of the second open, after `register_handle`. -/
def state1b (S : Nat) : RIODescQuery :=
  { hndl_to_descs := [some { hndl := 0, paddr := 0, size := S },
      some { hndl := 1, paddr := 0, size := S }],
    paddr_to_hndls := [(0, S - 1, 0)],
    next_hndl := 2, free_hndls := [] }

theorem open_state1_eval {S : Nat} (hS : 1 ≤ S) (hU : 3 * S ≤ U64MOD) :
    register_open (state1 S) S = some (1, state2 S) := by
  have hrh : register_handle (state1 S) S = (1, state1b S) := by
    rw [register_handle_fresh rfl rfl]
    rfl
  have hov1 : IST.overlap (state1b S).paddr_to_hndls 0 (bound64 0 S) = [0] := by
    show IST.overlap [(0, S - 1, 0)] 0 (bound64 0 S) = [0]
    unfold IST.overlap
    rw [overlapEnts_cons_pos ⟨Nat.zero_le _, Nat.zero_le _⟩]
    rfl
  have hov2 : IST.overlap (state1b S).paddr_to_hndls S (bound64 S S) = [] := by
    show IST.overlap [(0, S - 1, 0)] S (bound64 S S) = []
    rw [bound64_eq hS (by omega)]
    unfold IST.overlap
    rw [overlapEnts_cons_neg (by dsimp only; omega)]
    rfl
  have hd : hndl_to_desc (state1b S) 1 = some { hndl := 1, paddr := 0, size := S } := rfl
  have hpn : place_next (state1b S) S 0 = some S := by
    rw [place_next_eval hov1 rfl rfl]
    dsimp only
    rw [wadd_eq (by omega), Nat.zero_add]
  have hpl : place_loop (state1b S) S 0
      (IST.size (state1b S).paddr_to_hndls + 1) = some S := by
    rw [place_loop_step (by rw [hov1]; rfl) hpn,
      show IST.size (state1b S).paddr_to_hndls = 0 + 1 from rfl]
    exact place_loop_empty (by rw [hov2]; rfl)
  rw [register_open_eq hrh hd hpl]
  rw [bound64_eq hS (by omega),
    show S + S - 1 = 2 * S - 1 from by omega]
  rw [show (state1b S).paddr_to_hndls = [(0, S - 1, 0)] from rfl,
    ist_insert_cons_gt (by dsimp only; omega)]
  rfl

/-- Intermediate state of the third open, after `register_handle`. -/
def state2b (S : Nat) : RIODescQuery :=
  { hndl_to_descs := [some { hndl := 0, paddr := 0, size := S },
      some { hndl := 1, paddr := S, size := S },
      some { hndl := 2, paddr := 0, size := S }],
    paddr_to_hndls := [(0, S - 1, 0), (S, 2 * S - 1, 1)],
    next_hndl := 3, free_hndls := [] }

theorem open_state2_eval {S : Nat} (hS : 1 ≤ S) (hU : 3 * S ≤ U64MOD) :
    register_open (state2 S) S = some (2, threeState S) := by
  have hrh : register_handle (state2 S) S = (2, state2b S) := by
    rw [register_handle_fresh rfl rfl]
    rfl
  have hov1 : IST.overlap (state2b S).paddr_to_hndls 0 (bound64 0 S) = [0] := by
    show IST.overlap [(0, S - 1, 0), (S, 2 * S - 1, 1)] 0 (bound64 0 S) = [0]
    rw [bound64_eq hS (by omega)]
    unfold IST.overlap
    rw [overlapEnts_cons_pos (by dsimp only; omega),
      overlapEnts_cons_neg (by dsimp only; omega)]
    rfl
  have hpn1 : place_next (state2b S) S 0 = some S := by
    rw [place_next_eval hov1 rfl rfl]
    dsimp only
    rw [wadd_eq (by omega), Nat.zero_add]
  have hov2 : IST.overlap (state2b S).paddr_to_hndls S (bound64 S S) = [1] := by
    show IST.overlap [(0, S - 1, 0), (S, 2 * S - 1, 1)] S (bound64 S S) = [1]
    rw [bound64_eq hS (by omega)]
    unfold IST.overlap
    rw [overlapEnts_cons_neg (by dsimp only; omega),
      overlapEnts_cons_pos (by dsimp only; omega)]
    rfl
  have hpn2 : place_next (state2b S) S S = some (2 * S) := by
    rw [place_next_eval hov2 rfl rfl]
    dsimp only
    rw [wadd_eq (by omega), show S + S = 2 * S from by omega]
  have hov3 : IST.overlap (state2b S).paddr_to_hndls (2 * S) (bound64 (2 * S) S) = [] := by
    show IST.overlap [(0, S - 1, 0), (S, 2 * S - 1, 1)] (2 * S) (bound64 (2 * S) S) = []
    rw [bound64_eq hS (by omega)]
    unfold IST.overlap
    rw [overlapEnts_cons_neg (by dsimp only; omega),
      overlapEnts_cons_neg (by dsimp only; omega)]
    rfl
  have hd : hndl_to_desc (state2b S) 2 = some { hndl := 2, paddr := 0, size := S } := rfl
  have hpl : place_loop (state2b S) S 0
      (IST.size (state2b S).paddr_to_hndls + 1) = some (2 * S) := by
    rw [place_loop_step (by rw [hov1]; rfl) hpn1,
      show IST.size (state2b S).paddr_to_hndls = (0 + 1) + 1 from rfl,
      place_loop_step (by rw [hov2]; rfl) hpn2]
    exact place_loop_empty (by rw [hov3]; rfl)
  rw [register_open_eq hrh hd hpl]
  rw [bound64_eq hS (by omega),
    show 2 * S + S - 1 = 3 * S - 1 from by omega]
  rw [show (state2b S).paddr_to_hndls = [(0, S - 1, 0), (S, 2 * S - 1, 1)] from rfl,
    ist_insert_cons_gt (by dsimp only; omega),
    ist_insert_cons_gt (by dsimp only; omega)]
  rfl

theorem close_three_eval {S : Nat} (hS : 1 ≤ S) (hU : 3 * S ≤ U64MOD) :
    close (threeState S) 1 =
      (Except.ok { hndl := 1, paddr := S, size := S }, closedState S) := by
  rw [close_ok (show hndl_to_desc (threeState S) 1 =
    some { hndl := 1, paddr := S, size := S } from rfl)]
  dsimp only
  rw [bound64_eq hS (by omega), show S + S - 1 = 2 * S - 1 from by omega]
  rw [show (threeState S).paddr_to_hndls =
      [(0, S - 1, 0), (S, 2 * S - 1, 1), (2 * S, 3 * S - 1, 2)] from rfl,
    ist_delete_cons_neg (by dsimp only; omega),
    ist_delete_cons_pos ⟨rfl, rfl⟩,
    ist_delete_cons_neg (by dsimp only; omega)]
  rfl

/-- Intermediate state of the reopen, after `register_handle` pops the
freed middle handle. -/
def closedPop (S : Nat) : RIODescQuery :=
  { hndl_to_descs := [some { hndl := 0, paddr := 0, size := S },
      some { hndl := 1, paddr := 0, size := S },
      some { hndl := 2, paddr := 2 * S, size := S }],
    paddr_to_hndls := [(0, S - 1, 0), (2 * S, 3 * S - 1, 2)],
    next_hndl := 3, free_hndls := [] }

theorem reopen_eval {S : Nat} (hS : 1 ≤ S) (hU : 3 * S ≤ U64MOD) :
    register_open (closedState S) S = some (1, threeState S) := by
  have hrh : register_handle (closedState S) S = (1, closedPop S) := by
    rw [register_handle_pop rfl (by show (1 : Nat) < 3; omega)]
    rfl
  have hov1 : IST.overlap (closedPop S).paddr_to_hndls 0 (bound64 0 S) = [0] := by
    show IST.overlap [(0, S - 1, 0), (2 * S, 3 * S - 1, 2)] 0 (bound64 0 S) = [0]
    rw [bound64_eq hS (by omega)]
    unfold IST.overlap
    rw [overlapEnts_cons_pos (by dsimp only; omega),
      overlapEnts_cons_neg (by dsimp only; omega)]
    rfl
  have hpn1 : place_next (closedPop S) S 0 = some S := by
    rw [place_next_eval hov1 rfl rfl]
    dsimp only
    rw [wadd_eq (by omega), Nat.zero_add]
  have hov2 : IST.overlap (closedPop S).paddr_to_hndls S (bound64 S S) = [] := by
    show IST.overlap [(0, S - 1, 0), (2 * S, 3 * S - 1, 2)] S (bound64 S S) = []
    rw [bound64_eq hS (by omega)]
    unfold IST.overlap
    rw [overlapEnts_cons_neg (by dsimp only; omega),
      overlapEnts_cons_neg (by dsimp only; omega)]
    rfl
  have hd : hndl_to_desc (closedPop S) 1 = some { hndl := 1, paddr := 0, size := S } := rfl
  have hpl : place_loop (closedPop S) S 0
      (IST.size (closedPop S).paddr_to_hndls + 1) = some S := by
    rw [place_loop_step (by rw [hov1]; rfl) hpn1,
      show IST.size (closedPop S).paddr_to_hndls = 1 + 1 from rfl]
    exact place_loop_empty (by rw [hov2]; rfl)
  rw [register_open_eq hrh hd hpl]
  rw [bound64_eq hS (by omega),
    show S + S - 1 = 2 * S - 1 from by omega]
  rw [show (closedPop S).paddr_to_hndls = [(0, S - 1, 0), (2 * S, 3 * S - 1, 2)] from rfl,
    ist_insert_cons_gt (by dsimp only; omega),
    ist_insert_cons_le (by dsimp only; omega)]
  rfl

theorem range_mid_eval {S off : Nat} (hS : 1 ≤ S) (hU : 3 * S ≤ U64MOD)
    (hoff : off < S) :
    paddr_range_to_hndl (threeState S) off (3 * S - off) =
      some [(0, off, S - off), (1, S, S), (2, 2 * S, S)] := by
  have hovq : IST.overlap (threeState S).paddr_to_hndls off
      (bound64 off (3 * S - off)) = [0, 1, 2] := by
    show IST.overlap [(0, S - 1, 0), (S, 2 * S - 1, 1), (2 * S, 3 * S - 1, 2)] off
      (bound64 off (3 * S - off)) = [0, 1, 2]
    rw [bound64_eq (by omega) (by omega),
      show off + (3 * S - off) - 1 = 3 * S - 1 from by omega]
    unfold IST.overlap
    rw [overlapEnts_cons_pos (by dsimp only; omega),
      overlapEnts_cons_pos (by dsimp only; omega),
      overlapEnts_cons_pos (by dsimp only; omega)]
    rfl
  have t3 : ∀ u, range_loop (threeState S) [] u 0 = some [] := by
    intro u
    rw [range_loop, if_pos rfl]
  have t2 : range_loop (threeState S) [2] (2 * S) S = some [(2, 2 * S, S)] := by
    rw [range_loop_cons_eval
      (show hndl_to_desc (threeState S) 2 =
        some { hndl := 2, paddr := 2 * S, size := S } from rfl)
      (Nat.le_refl _)
      (show min S (wsub S (2 * S - 2 * S)) = S by
        rw [Nat.sub_self, wsub_eq (Nat.zero_le _) (show S < U64MOD by omega), Nat.sub_zero,
          min_self])]
    rw [Nat.sub_self, t3]
  have t1 : range_loop (threeState S) [1, 2] S (2 * S) =
      some [(1, S, S), (2, 2 * S, S)] := by
    rw [range_loop_cons_eval
      (show hndl_to_desc (threeState S) 1 =
        some { hndl := 1, paddr := S, size := S } from rfl)
      (Nat.le_refl _)
      (show min (2 * S) (wsub S (S - S)) = S by
        rw [Nat.sub_self, wsub_eq (Nat.zero_le _) (show S < U64MOD by omega), Nat.sub_zero]
        exact min_eq_right (by omega))]
    rw [wadd_eq (show S + S < U64MOD by omega), show S + S = 2 * S from by omega,
      show 2 * S - S = S from by omega, t2]
  unfold paddr_range_to_hndl
  dsimp only
  rw [hovq, if_neg (by decide)]
  rw [range_loop_cons_eval
    (show hndl_to_desc (threeState S) 0 =
      some { hndl := 0, paddr := 0, size := S } from rfl)
    (Nat.zero_le _)
    (show min (3 * S - off) (wsub S (off - 0)) = S - off by
      rw [Nat.sub_zero, wsub_eq (show off ≤ S by omega) (show S < U64MOD by omega)]
      exact min_eq_right (by omega))]
  rw [wadd_eq (show off + (S - off) < U64MOD by omega),
    show off + (S - off) = S from by omega,
    show 3 * S - off - (S - off) = 2 * S from by omega, t1]

theorem range_end_eval {S off : Nat} (hS : 1 ≤ S) (hU : 3 * S ≤ U64MOD)
    (hoff : off < S) :
    paddr_range_to_hndl (threeState S) 0 (3 * S - off) =
      some [(0, 0, S), (1, S, S), (2, 2 * S, S - off)] := by
  have hovq : IST.overlap (threeState S).paddr_to_hndls 0
      (bound64 0 (3 * S - off)) = [0, 1, 2] := by
    show IST.overlap [(0, S - 1, 0), (S, 2 * S - 1, 1), (2 * S, 3 * S - 1, 2)] 0
      (bound64 0 (3 * S - off)) = [0, 1, 2]
    rw [bound64_eq (by omega) (by omega),
      show 0 + (3 * S - off) - 1 = 3 * S - off - 1 from by omega]
    unfold IST.overlap
    rw [overlapEnts_cons_pos (by dsimp only; omega),
      overlapEnts_cons_pos (by dsimp only; omega),
      overlapEnts_cons_pos (by dsimp only; omega)]
    rfl
  have t3 : ∀ u, range_loop (threeState S) [] u 0 = some [] := by
    intro u
    rw [range_loop, if_pos rfl]
  have t2 : range_loop (threeState S) [2] (2 * S) (S - off) =
      some [(2, 2 * S, S - off)] := by
    rw [range_loop_cons_eval
      (show hndl_to_desc (threeState S) 2 =
        some { hndl := 2, paddr := 2 * S, size := S } from rfl)
      (Nat.le_refl _)
      (show min (S - off) (wsub S (2 * S - 2 * S)) = S - off by
        rw [Nat.sub_self, wsub_eq (Nat.zero_le _) (show S < U64MOD by omega), Nat.sub_zero]
        exact min_eq_left (by omega))]
    rw [Nat.sub_self, t3]
  have t1 : range_loop (threeState S) [1, 2] S (2 * S - off) =
      some [(1, S, S), (2, 2 * S, S - off)] := by
    rw [range_loop_cons_eval
      (show hndl_to_desc (threeState S) 1 =
        some { hndl := 1, paddr := S, size := S } from rfl)
      (Nat.le_refl _)
      (show min (2 * S - off) (wsub S (S - S)) = S by
        rw [Nat.sub_self, wsub_eq (Nat.zero_le _) (show S < U64MOD by omega), Nat.sub_zero]
        exact min_eq_right (by omega))]
    rw [wadd_eq (show S + S < U64MOD by omega), show S + S = 2 * S from by omega,
      show 2 * S - off - S = S - off from by omega, t2]
  unfold paddr_range_to_hndl
  dsimp only
  rw [hovq, if_neg (by decide)]
  rw [range_loop_cons_eval
    (show hndl_to_desc (threeState S) 0 =
      some { hndl := 0, paddr := 0, size := S } from rfl)
    (Nat.zero_le _)
    (show min (3 * S - off) (wsub S (0 - 0)) = S by
      rw [Nat.sub_self, wsub_eq (Nat.zero_le _) (show S < U64MOD by omega), Nat.sub_zero]
      exact min_eq_right (by omega))]
  rw [wadd_eq (show 0 + S < U64MOD by omega), Nat.zero_add,
    show 3 * S - off - S = 2 * S - off from by omega, t1]

/-! ## Additional step lemma for the termination analysis -/

/-- Any successful `place_next` step strictly increases the candidate
address, provided no indexed interval ends at the very top of the
address space. -/
theorem place_next_increases {s : RIODescQuery} (hok : StateOK s)
    (htop : ∀ e ∈ s.paddr_to_hndls, e.2.1 + 1 < U64MOD)
    {size lo lo2 : Nat} (hpn : place_next s size lo = some lo2) : lo < lo2 := by
  have hne : (IST.overlap s.paddr_to_hndls lo (bound64 lo size)).isEmpty = false := by
    cases hemp : (IST.overlap s.paddr_to_hndls lo (bound64 lo size)).isEmpty
    · rfl
    · exfalso
      rw [List.isEmpty_iff] at hemp
      rw [place_next, hemp] at hpn
      cases hpn
  obtain ⟨lo3, hpn2, hlt, _⟩ := place_next_step hok htop hne
  rw [hpn2] at hpn
  injection hpn with h
  omega

/-! ## The claims -/

/-- The state the unchecked three-operation run below ends in: the
second and third descriptors both start at address `2^64 - 2`. -/
def c1BadState : RIODescQuery :=
  { hndl_to_descs := [some { hndl := 0, paddr := 0, size := U64MOD - 2 },
      some { hndl := 1, paddr := U64MOD - 2, size := 5 },
      some { hndl := 2, paddr := U64MOD - 2, size := 3 }],
    paddr_to_hndls := [(0, U64MOD - 3, 0), (U64MOD - 2, 0, 2), (U64MOD - 2, 2, 1)],
    next_hndl := 3, free_hndls := [] }

/-- C1 fails as stated: a successful unchecked run (placements may wrap
past `2^64`) ends with two distinct live descriptors whose math
intervals `[paddr, paddr+size-1]` overlap. -/
theorem c1_counterexample :
    runOps RIODescQuery.new
        [RIOOp.op_open_at (U64MOD - 2) 0, RIOOp.op_open 5, RIOOp.op_open 3] =
      some c1BadState ∧
    hndl_to_desc c1BadState 1 = some { hndl := 1, paddr := U64MOD - 2, size := 5 } ∧
    hndl_to_desc c1BadState 2 = some { hndl := 2, paddr := U64MOD - 2, size := 3 } ∧
    ¬((U64MOD - 2) + 5 ≤ U64MOD - 2 ∨ (U64MOD - 2) + 3 ≤ U64MOD - 2) :=
  ⟨by rfl, rfl, rfl, by decide⟩

/-- C1: after any sequence of successful checked operations (every size
in `[1, 2^64-1]` and every placement wrap-free), the math intervals
`[paddr, paddr+size-1]` of distinct live descriptors are disjoint,
every live descriptor's exact interval is stored in the address index,
and the index size equals the number of live descriptors. -/
theorem c1_live_intervals_disjoint {ops : List RIOOp} {s : RIODescQuery}
    (h : runOpsChecked RIODescQuery.new ops = some s) :
    (∀ g1 g2 d1 d2, g1 ≠ g2 →
        hndl_to_desc s g1 = some d1 → hndl_to_desc s g2 = some d2 →
        d1.paddr + d1.size ≤ d2.paddr ∨ d2.paddr + d2.size ≤ d1.paddr) ∧
    (∀ g d, hndl_to_desc s g = some d →
        (d.paddr, d.paddr + d.size - 1, g) ∈ s.paddr_to_hndls) ∧
    IST.size s.paddr_to_hndls = liveCount s := by
  obtain ⟨hpw, hval, hcoh, hslots, hnext, hfpw, hfcoh, hsize⟩ :=
    stateOK_runOpsChecked stateOK_new h
  refine ⟨?_, ?_, hsize⟩
  · intro g1 g2 d1 d2 hne hd1 hd2
    obtain ⟨hh1, hs1, hsu1, hb1, hm1⟩ := hslots g1 (tget_lt_of_some hd1) d1 hd1
    obtain ⟨hh2, hs2, hsu2, hb2, hm2⟩ := hslots g2 (tget_lt_of_some hd2) d2 hd2
    have hne2 : ((d1.paddr, d1.paddr + d1.size - 1, g1) : ISTEntry) ≠
        (d2.paddr, d2.paddr + d2.size - 1, g2) := by
      intro hc
      exact hne (congrArg (fun e : ISTEntry => e.2.2) hc)
    have hd := pairwise_mem_disj hpw hm1 hm2 hne2
    dsimp only at hd
    omega
  · intro g d hd
    exact (hslots g (tget_lt_of_some hd) d hd).2.2.2.2

/-- The state a checked run of open, exact open and close ends in. -/
def c1WitState : RIODescQuery :=
  { hndl_to_descs := [none, some { hndl := 1, paddr := 100, size := 3 }],
    paddr_to_hndls := [(100, 102, 1)], next_hndl := 2, free_hndls := [0] }

/-- Witness instantiating C1 on a concrete checked run. -/
theorem c1_witness :
    (∀ g1 g2 d1 d2, g1 ≠ g2 →
        hndl_to_desc c1WitState g1 = some d1 → hndl_to_desc c1WitState g2 = some d2 →
        d1.paddr + d1.size ≤ d2.paddr ∨ d2.paddr + d2.size ≤ d1.paddr) ∧
    (∀ g d, hndl_to_desc c1WitState g = some d →
        (d.paddr, d.paddr + d.size - 1, g) ∈ c1WitState.paddr_to_hndls) ∧
    IST.size c1WitState.paddr_to_hndls = liveCount c1WitState :=
  @c1_live_intervals_disjoint
    [RIOOp.op_open 5, RIOOp.op_open_at 3 100, RIOOp.op_close 0] c1WitState rfl

/-- A one-descriptor state used to exercise a failing exact placement. -/
def c2State0 : RIODescQuery :=
  { hndl_to_descs := [some { hndl := 0, paddr := 0, size := 5 }],
    paddr_to_hndls := [(0, 4, 0)], next_hndl := 1, free_hndls := [] }

/-- The state the failing exact placement actually leaves behind: the
handle table has grown by a dead slot, the next-handle counter has
advanced and the freed handle sits in the pool. -/
def c2State1 : RIODescQuery :=
  { hndl_to_descs := [some { hndl := 0, paddr := 0, size := 5 }, none],
    paddr_to_hndls := [(0, 4, 0)], next_hndl := 2, free_hndls := [1] }

/-- C2 fails as stated: a failed overlapping `register_open_at` does not
leave the state exactly as before the call; the next-handle counter,
the table length and the free pool all change. -/
theorem c2_counterexample :
    register_open_at c2State0 3 2 =
      some (Except.error IoError.AddressesOverlapError, c2State1) ∧
    c2State1 ≠ c2State0 ∧
    c2State1.next_hndl ≠ c2State0.next_hndl ∧
    c2State1.hndl_to_descs.length ≠ c2State0.hndl_to_descs.length ∧
    c2State1.free_hndls ≠ c2State0.free_hndls :=
  ⟨rfl, by decide, by decide, by decide, by decide⟩

/-- C2: an overlapping in-range `register_open_at` fails with
`AddressesOverlap` and is rolled back observationally: every handle
lookup, the address index, the live count and the next handle to be
allocated are exactly as before the call (the counter and the pool
representation may differ). -/
theorem c2_overlap_rollback {s : RIODescQuery} (hok : StateOK s)
    {size addr : Nat} (hs : 1 ≤ size) (hb : addr + size ≤ U64MOD)
    (hovl : ∃ e ∈ s.paddr_to_hndls, e.1 ≤ addr + size - 1 ∧ addr ≤ e.2.1) :
    ∃ s2, register_open_at s size addr =
        some (Except.error IoError.AddressesOverlapError, s2) ∧
      (∀ g, hndl_to_desc s2 g = hndl_to_desc s g) ∧
      s2.paddr_to_hndls = s.paddr_to_hndls ∧
      liveCount s2 = liveCount s ∧
      (get_new_hndl s2).1 = (get_new_hndl s).1 :=
  open_at_overlap_rollback hok hs hb hovl

/-- Witness instantiating C2 on the concrete overlapping call. -/
theorem c2_witness :
    ∃ s2, register_open_at c2State0 3 2 =
        some (Except.error IoError.AddressesOverlapError, s2) ∧
      (∀ g, hndl_to_desc s2 g = hndl_to_desc c2State0 g) ∧
      s2.paddr_to_hndls = c2State0.paddr_to_hndls ∧
      liveCount s2 = liveCount c2State0 ∧
      (get_new_hndl s2).1 = (get_new_hndl c2State0).1 :=
  c2_overlap_rollback (by decide) (by decide) (by decide)
    ⟨(0, 4, 0), by decide, by decide, by decide⟩

/-- C3: from the empty state three same-size opens land at addresses
`0`, `S` and `2S` with handles `0`, `1`, `2`; closing the middle handle
and opening the same size again reuses address `S` (first fit into the
gap), not `3S`. -/
theorem c3_first_fit_gap_reuse {S : Nat} (hS : 1 ≤ S) (hU : 3 * S ≤ U64MOD) :
    register_open RIODescQuery.new S = some (0, state1 S) ∧
    register_open (state1 S) S = some (1, state2 S) ∧
    register_open (state2 S) S = some (2, threeState S) ∧
    (hndl_to_desc (threeState S) 0).map RIODesc.paddr = some 0 ∧
    (hndl_to_desc (threeState S) 1).map RIODesc.paddr = some S ∧
    (hndl_to_desc (threeState S) 2).map RIODesc.paddr = some (2 * S) ∧
    close (threeState S) 1 =
      (Except.ok { hndl := 1, paddr := S, size := S }, closedState S) ∧
    register_open (closedState S) S = some (1, threeState S) ∧
    S ≠ 3 * S :=
  ⟨open_new_eval hS hU, open_state1_eval hS hU, open_state2_eval hS hU,
    rfl, rfl, rfl, close_three_eval hS hU, reopen_eval hS hU, by omega⟩

/-- Witness instantiating C3 at size 4. -/
theorem c3_witness :
    register_open RIODescQuery.new 4 = some (0, state1 4) ∧
    register_open (state1 4) 4 = some (1, state2 4) ∧
    register_open (state2 4) 4 = some (2, threeState 4) ∧
    (hndl_to_desc (threeState 4) 0).map RIODesc.paddr = some 0 ∧
    (hndl_to_desc (threeState 4) 1).map RIODesc.paddr = some 4 ∧
    (hndl_to_desc (threeState 4) 2).map RIODesc.paddr = some (2 * 4) ∧
    close (threeState 4) 1 =
      (Except.ok { hndl := 1, paddr := 4, size := 4 }, closedState 4) ∧
    register_open (closedState 4) 4 = some (1, threeState 4) ∧
    (4 : Nat) ≠ 3 * 4 :=
  c3_first_fit_gap_reuse (by decide) (by decide)

/-- C4: on a fully in-range query the code's range decomposition equals
the specified cursor algorithm (emit `(handle, cursor, min(remaining,
size - (cursor - address)))` per covering descriptor, in start order),
and on three size-`S` descriptors at `0`, `S`, `2S` the query `(0, 3S)`
returns the three full chunks, while queries starting or ending
mid-descriptor shorten exactly the first or the last chunk. -/
theorem c4_range_decomposition {S : Nat} (hS : 1 ≤ S) (hU : 3 * S ≤ U64MOD) :
    (∀ (s : RIODescQuery) (paddr size : Nat), StateOK s → 1 ≤ size →
      paddr + size ≤ U64MOD →
      paddr_range_to_hndl s paddr size = address_range_to_handles_spec s paddr size) ∧
    paddr_range_to_hndl (threeState S) 0 (3 * S) =
      some [(0, 0, S), (1, S, S), (2, 2 * S, S)] ∧
    (∀ off, 1 ≤ off → off < S →
      paddr_range_to_hndl (threeState S) off (3 * S - off) =
        some [(0, off, S - off), (1, S, S), (2, 2 * S, S)] ∧
      paddr_range_to_hndl (threeState S) 0 (3 * S - off) =
        some [(0, 0, S), (1, S, S), (2, 2 * S, S - off)]) := by
  refine ⟨fun s paddr size hok h1 h2 => paddr_range_spec_eq hok h1 h2, ?_, ?_⟩
  · have h0 := @range_mid_eval S 0 hS hU (by omega)
    simpa using h0
  · intro off h1 h2
    exact ⟨range_mid_eval hS hU h2, range_end_eval hS hU h2⟩

/-- Witness instantiating C4 at size 4 and offset 1, including the
refinement part on a concrete covered query. -/
theorem c4_witness :
    paddr_range_to_hndl (threeState 4) 1 11 =
      address_range_to_handles_spec (threeState 4) 1 11 ∧
    paddr_range_to_hndl (threeState 4) 0 12 = some [(0, 0, 4), (1, 4, 4), (2, 8, 4)] ∧
    paddr_range_to_hndl (threeState 4) 1 11 = some [(0, 1, 3), (1, 4, 4), (2, 8, 4)] ∧
    paddr_range_to_hndl (threeState 4) 0 11 = some [(0, 0, 4), (1, 4, 4), (2, 8, 3)] := by
  have h4 := c4_range_decomposition (show (1 : Nat) ≤ 4 by decide)
    (show 3 * 4 ≤ U64MOD by decide)
  have hoff := h4.2.2 1 (by decide) (by decide)
  exact ⟨h4.1 (threeState 4) 1 11 (by decide) (by decide) (by decide),
    by simpa using h4.2.1, by simpa using hoff.1, by simpa using hoff.2⟩

/-- C5: an in-range query of positive length returns `some` exactly when
every address of the closed query range is covered by a live interval,
and returns `none` exactly when the range touches an uncovered address
(a gap at the left, in the middle, at the right, or no coverage at all). -/
theorem c5_range_gap_absence {s : RIODescQuery} (hok : StateOK s)
    {paddr size : Nat} (hs : 1 ≤ size) (hb : paddr + size ≤ U64MOD) :
    ((paddr_range_to_hndl s paddr size).isSome = true ↔
      ∀ x, paddr ≤ x → x ≤ paddr + size - 1 → Covers s x) ∧
    (paddr_range_to_hndl s paddr size = none ↔
      ∃ x, paddr ≤ x ∧ x ≤ paddr + size - 1 ∧ ¬ Covers s x) := by
  have h1 := paddr_range_covers hok hs hb
  refine ⟨h1, ?_, ?_⟩
  · intro hn
    by_contra hc
    push_neg at hc
    have h2 := h1.mpr fun x hx1 hx2 => hc x hx1 hx2
    rw [hn] at h2
    cases h2
  · rintro ⟨x, hx1, hx2, hx3⟩
    cases hopt : paddr_range_to_hndl s paddr size with
    | none => rfl
    | some l =>
      exact absurd (h1.mp (by rw [hopt]; rfl) x hx1 hx2) hx3

/-- Witness instantiating C5 on a query that runs one address past the
last live interval of the three-descriptor state. -/
theorem c5_witness :
    ((paddr_range_to_hndl (threeState 4) 0 13).isSome = true ↔
      ∀ x, 0 ≤ x → x ≤ 0 + 13 - 1 → Covers (threeState 4) x) ∧
    (paddr_range_to_hndl (threeState 4) 0 13 = none ↔
      ∃ x, 0 ≤ x ∧ x ≤ 0 + 13 - 1 ∧ ¬ Covers (threeState 4) x) :=
  c5_range_gap_absence (by decide) (by decide) (by decide)

/-- C6: closing a live handle observed with address `a` and size `sz`
succeeds, hands back that very descriptor, and afterwards the handle
lookup and every point query inside `[a, a+sz-1]` are absent. -/
theorem c6_close_observation {s : RIODescQuery} (hok : StateOK s) {h : Nat}
    {d : RIODesc} {a sz : Nat} (hd : hndl_to_desc s h = some d)
    (ha : d.paddr = a) (hz : d.size = sz) :
    ∃ s2, close s h = (Except.ok d, s2) ∧ d.paddr = a ∧ d.size = sz ∧
      hndl_to_desc s2 h = none ∧
      ∀ x, a ≤ x → x ≤ a + sz - 1 → paddr_to_hndl s2 x = none := by
  subst ha hz
  obtain ⟨s2, hc, hn, hp⟩ := close_round_trip hok hd
  exact ⟨s2, hc, rfl, rfl, hn, hp⟩

/-- Witness instantiating C6 on the middle descriptor of the concrete
three-descriptor state. -/
theorem c6_witness :
    ∃ s2, close (threeState 4) 1 =
        (Except.ok { hndl := 1, paddr := 4, size := 4 }, s2) ∧
      RIODesc.paddr { hndl := 1, paddr := 4, size := 4 } = 4 ∧
      RIODesc.size { hndl := 1, paddr := 4, size := 4 } = 4 ∧
      hndl_to_desc s2 1 = none ∧
      ∀ x, 4 ≤ x → x ≤ 4 + 4 - 1 → paddr_to_hndl s2 x = none :=
  c6_close_observation (by decide) rfl rfl rfl

/-- A state whose free pool already holds handle 0 while handles 1 and 2
are live; it satisfies the data-structure invariant. -/
def c7State : RIODescQuery :=
  { hndl_to_descs := [none, some { hndl := 1, paddr := 0, size := 5 },
      some { hndl := 2, paddr := 5, size := 5 }],
    paddr_to_hndls := [(0, 4, 1), (5, 9, 2)], next_hndl := 3, free_hndls := [0] }

/-- `c7State` after closing handle 1. -/
def c7StateA : RIODescQuery :=
  { hndl_to_descs := [none, none, some { hndl := 2, paddr := 5, size := 5 }],
    paddr_to_hndls := [(5, 9, 2)], next_hndl := 3, free_hndls := [0, 1] }

/-- `c7State` after closing handles 1 and 2. -/
def c7StateB : RIODescQuery :=
  { hndl_to_descs := [none, none, none],
    paddr_to_hndls := [], next_hndl := 3, free_hndls := [0, 1, 2] }

/-- `c7StateB` after one open of size 5: it takes handle 0. -/
def c7StateC : RIODescQuery :=
  { hndl_to_descs := [some { hndl := 0, paddr := 0, size := 5 }, none, none],
    paddr_to_hndls := [(0, 4, 0)], next_hndl := 3, free_hndls := [1, 2] }

/-- `c7StateC` after one more open of size 5: it takes handle 1. -/
def c7StateD : RIODescQuery :=
  { hndl_to_descs := [some { hndl := 0, paddr := 0, size := 5 },
      some { hndl := 1, paddr := 5, size := 5 }, none],
    paddr_to_hndls := [(0, 4, 0), (5, 9, 1)], next_hndl := 3, free_hndls := [2] }

/-- C7 fails as stated: closing handles 1 then 2 from a valid state
whose pool already holds the smaller handle 0 makes the next two opens
return 0 and 1, not 1 and 2. -/
theorem c7_counterexample :
    StateOK c7State ∧
    close c7State 1 = (Except.ok { hndl := 1, paddr := 0, size := 5 }, c7StateA) ∧
    close c7StateA 2 = (Except.ok { hndl := 2, paddr := 5, size := 5 }, c7StateB) ∧
    register_open c7StateB 5 = some (0, c7StateC) ∧
    register_open c7StateC 5 = some (1, c7StateD) ∧
    (0 : Nat) ≠ 1 ∧ (1 : Nat) ≠ 2 :=
  ⟨by decide, rfl, rfl, rfl, rfl, by decide, by decide⟩

/-- C7: handle allocation pops the head of the free pool — its minimum
whenever the pool is sorted ascending, as the invariant maintains — and
with an empty pool returns the counter value, advancing the counter;
closing `a` then `b` (`a < b`) starting from an empty pool makes the
next two successful opens return `a` then `b`; and with an empty pool a
successful open returns the fresh counter value, strictly above every
live and every free handle. -/
theorem c7_handle_allocation :
    (∀ s : RIODescQuery,
      (s.free_hndls = [] →
        get_new_hndl s = (s.next_hndl, { s with next_hndl := s.next_hndl + 1 })) ∧
      (∀ h t, s.free_hndls = h :: t →
        get_new_hndl s = (h, { s with free_hndls := t }) ∧
        (List.Pairwise (fun a b => a < b) s.free_hndls →
          ∀ g ∈ s.free_hndls, h ≤ g))) ∧
    (∀ s : RIODescQuery, s.free_hndls = [] → ∀ a b : Nat, a < b →
      ∀ (da db : RIODesc) (s1 s2 : RIODescQuery),
        close s a = (Except.ok da, s1) → close s1 b = (Except.ok db, s2) →
        ∀ (sz1 sz2 h1 h2 : Nat) (s3 s4 : RIODescQuery),
          register_open s2 sz1 = some (h1, s3) →
          register_open s3 sz2 = some (h2, s4) → h1 = a ∧ h2 = b) ∧
    (∀ s : RIODescQuery, StateOK s → s.free_hndls = [] →
      ∀ (size h1 : Nat) (s3 : RIODescQuery),
        register_open s size = some (h1, s3) →
        h1 = s.next_hndl ∧
        ∀ g, (hndl_to_desc s g ≠ none ∨ g ∈ s.free_hndls) → g < h1) := by
  refine ⟨get_new_hndl_rule, ?_, ?_⟩
  · intro s hfe a b hab da db s1 s2 hca hcb sz1 sz2 h1 h2 s3 s4 ho1 ho2
    exact reuse_order hfe hab hca hcb ho1 ho2
  · intro s hok hfe size h1 s3 ho
    exact open_fresh_hndl hok hfe ho

/-- C8: closing a handle that is not live — never issued or already
closed — fails with `HndlNotFound` and returns the state unchanged, so
the free pool, the handle table and the address index are untouched. -/
theorem c8_close_dead_handle {s : RIODescQuery} {h : Nat}
    (hd : hndl_to_desc s h = none) :
    close s h = (Except.error IoError.HndlNotFoundError, s) :=
  close_err hd

/-- Witness instantiating C8 on a never-issued handle of the concrete
three-descriptor state. -/
theorem c8_witness :
    close (threeState 4) 5 = (Except.error IoError.HndlNotFoundError, threeState 4) :=
  c8_close_dead_handle rfl

/-- A valid state whose two intervals tile the whole `u64` space; the
top interval ends at `2^64 - 1`. -/
def c9State : RIODescQuery :=
  { hndl_to_descs := [some { hndl := 0, paddr := 0, size := 1 },
      some { hndl := 1, paddr := 1, size := U64MOD - 1 }],
    paddr_to_hndls := [(0, 0, 0), (1, U64MOD - 1, 1)],
    next_hndl := 2, free_hndls := [] }

/-- C9 fails as stated: on a valid state whose top interval ends at
`2^64 - 1`, the placement sweep for a size-1 descriptor never exits —
with fuel one past the number of live intervals it has not finished —
and a sweep step can wrap the candidate address downwards instead of
strictly increasing it. -/
theorem c9_counterexample :
    StateOK c9State ∧
    place_loop c9State 1 0 (IST.size c9State.paddr_to_hndls + 1) = none ∧
    place_next c9State 1 1 = some 0 ∧ ¬(1 : Nat) < 0 :=
  ⟨by decide, by rfl, by rfl, by decide⟩

/-- C9: under the invariant, and provided no indexed interval reaches
the top address `2^64 - 1`, every placement step strictly increases the
candidate address and the placement sweep finishes within (number of
live intervals + 1) iterations. -/
theorem c9_placement_terminates {s : RIODescQuery} (hok : StateOK s)
    (htop : ∀ e ∈ s.paddr_to_hndls, e.2.1 + 1 < U64MOD) (size : Nat) :
    (place_loop s size 0 (IST.size s.paddr_to_hndls + 1)).isSome = true ∧
    ∀ lo lo2, place_next s size lo = some lo2 → lo < lo2 :=
  ⟨place_loop_terminates hok htop size 0,
    fun _ _ hpn => place_next_increases hok htop hpn⟩

/-- Witness instantiating C9 on the concrete three-descriptor state. -/
theorem c9_witness :
    (place_loop (threeState 4) 4 0 (IST.size (threeState 4).paddr_to_hndls + 1)).isSome =
      true ∧
    ∀ lo lo2, place_next (threeState 4) 4 lo = some lo2 → lo < lo2 :=
  c9_placement_terminates (by decide) (by decide) 4

/-- C10: the closed-bound computation `base + size - 1` on `u64` is
exact under the preconditions `1 ≤ size` and `base + size ≤ 2^64` (the
bound then sits at or above `base` and below `2^64`); with `size = 0`
it underflows to `2^64 - 1`, and near the top of the address space it
wraps around to `0`. -/
theorem c10_bound_arithmetic :
    (∀ base size : Nat, 1 ≤ size → base + size ≤ U64MOD →
      bound64 base size = base + size - 1 ∧ base ≤ bound64 base size ∧
      bound64 base size < U64MOD) ∧
    bound64 0 0 = U64MOD - 1 ∧
    bound64 (U64MOD - 1) 2 = 0 := by
  refine ⟨?_, by decide, by decide⟩
  intro base size h1 h2
  have he := bound64_eq h1 h2
  exact ⟨he, by rw [he]; omega, bound64_lt base size⟩
